import Mathlib

/-!
# Verification of the ado-analytics core

Shallow embedding, in Lean 4, of the algorithmic core of the `ado-analytics`
repository, together with theorems settling the frozen behavioural claims.

Embedding conventions:
* JS timestamps (`Date` values, `Date.now()`, `Date.parse`) are integers
  (milliseconds since the Unix epoch).  `Date` parsing of strings is an
  environment primitive in JS, so functions that parse date strings take an
  explicit parameter `parse : String → Option Int` (`none` models an invalid
  date / `NaN`).
* For a positive divisor, JS `Math.floor (a / b)` is `Int` division `/`
  (Euclidean = floor for positive `b`) and the spec-level day-of-week
  computation `(Day(t) + 4) mod 7` of ECMA-262 is Euclidean `%`.
* `localeCompare(..., { sensitivity: "accent" }) === 0` is modelled as
  equality of lower-cased strings.
* `Array.prototype.sort` is required by ECMA-262 to be stable; with a
  consistent comparator its result is the unique stable sort, modelled here
  by a stable insertion sort.  A comparator result of `NaN` is coerced by
  the SortCompare operation to `+0`, i.e. "equal".
* Async control flow: JS is single-threaded, so the portion of an `async`
  function between two `await`s runs atomically.  Stateful async code (the
  cache) is modelled by explicit atomic steps on a state value.
-/

namespace AdoAnalytics

/-! ## Generic helpers -/

/-- Association-list lookup, modelling `Map.get`. -/
def lookupList {β : Type} (l : List (String × β)) (k : String) : Option β :=
  match l with
  | [] => none
  | (k', v) :: rest => if k' = k then some v else lookupList rest k

/-- Association-list deletion, modelling `Map.delete`. -/
def eraseKey {β : Type} (l : List (String × β)) (k : String) : List (String × β) :=
  match l with
  | [] => []
  | (k', v) :: rest => if k' = k then rest else (k', v) :: eraseKey rest k

/-- Association-list lookup with `Nat` keys (`Map<number, _>.get`). -/
def lookupNat {β : Type} (l : List (Nat × β)) (k : Nat) : Option β :=
  match l with
  | [] => none
  | (k', v) :: rest => if k' = k then some v else lookupNat rest k

/-- JS whitespace for `String.prototype.trim` (common cases). -/
def isJsSpace (c : Char) : Bool :=
  c = ' ' || c = '\t' || c = '\n' || c = '\r'

/-- Model of `String.prototype.trim` (kernel-computable). -/
def jsTrim (s : String) : String :=
  (((s.toList.dropWhile isJsSpace).reverse.dropWhile isJsSpace).reverse).asString

/-- ASCII lower-casing of one character. -/
def lowerChar (c : Char) : Char :=
  if 'A' ≤ c ∧ c ≤ 'Z' then Char.ofNat (c.toNat + 32) else c

/-- Model of `String.prototype.toLowerCase` (kernel-computable, ASCII). -/
def jsLower (s : String) : String :=
  (s.toList.map lowerChar).asString

/-- Model of `a.localeCompare(b, undefined, { sensitivity: "accent" }) === 0`
(case-insensitive comparison). -/
def eqAccent (a b : String) : Bool :=
  jsLower a == jsLower b

/-- Is `p` a prefix of the second list? -/
def listPrefix : List Char → List Char → Bool
  | [], _ => true
  | _ :: _, [] => false
  | a :: as, b :: bs => a == b && listPrefix as bs

/-- Does `needle` occur inside `l`? -/
def listContains (needle : List Char) : List Char → Bool
  | [] => needle.isEmpty
  | c :: rest => listPrefix needle (c :: rest) || listContains needle rest

/-- Model of `String.prototype.includes` (substring containment). -/
def containsStr (hay needle : String) : Bool :=
  listContains needle.toList hay.toList

/-- `xs.reduce((min, d) => (d < min ? d : min))` over a possibly empty list. -/
def reduceMin : List Int → Option Int
  | [] => none
  | d :: rest => some (rest.foldl (fun m x => if x < m then x else m) d)

/-- `xs.reduce((max, d) => (d > max ? d : max))` over a possibly empty list. -/
def reduceMax : List Int → Option Int
  | [] => none
  | d :: rest => some (rest.foldl (fun m x => if m < x then x else m) d)

/-- `Math.round(a / n)` for an integer sum `a ≥ 0` and count `n > 0`
(round half towards `+∞`). -/
def roundDiv (a : Int) (n : Nat) : Int :=
  (2 * a + n) / (2 * n)

/-- Stable insertion of `a` into `l`: `a` is placed before the first element
`b` with `le a b` and after every element it ties with that appears earlier
in the original array.  Building block of the model of the (stable)
`Array.prototype.sort`. -/
def stableInsert {α : Type} (le : α → α → Bool) (a : α) : List α → List α
  | [] => [a]
  | b :: l => if le a b then a :: b :: l else b :: stableInsert le a l

/-- Stable sort modelling `Array.prototype.sort` for a consistent comparator
`cmp` via `le a b := cmp a b ≤ 0`. -/
def stableSort {α : Type} (le : α → α → Bool) : List α → List α
  | [] => []
  | a :: l => stableInsert le a (stableSort le l)

theorem stableInsert_perm {α : Type} (le : α → α → Bool) (a : α) (l : List α) :
    List.Perm (stableInsert le a l) (a :: l) := by
  induction l with
  | nil => exact List.Perm.refl [a]
  | cons b t ih =>
    cases hab : le a b with
    | true => simp [stableInsert, hab]
    | false =>
      simp only [stableInsert, hab, Bool.false_eq_true, if_false]
      exact (List.Perm.cons b ih).trans (List.Perm.swap a b t)

theorem stableSort_perm {α : Type} (le : α → α → Bool) (l : List α) :
    List.Perm (stableSort le l) l := by
  induction l with
  | nil => simp [stableSort]
  | cons a t ih =>
    exact (stableInsert_perm le a (stableSort le t)).trans (List.Perm.cons a ih)

theorem stableInsert_mem {α : Type} (le : α → α → Bool) (a : α) (l : List α) (x : α) :
    x ∈ stableInsert le a l ↔ x = a ∨ x ∈ l := by
  constructor
  · intro hx
    have := (stableInsert_perm le a l).mem_iff.mp hx
    simpa using this
  · intro hx
    exact (stableInsert_perm le a l).mem_iff.mpr (by simpa using hx)

/-- Sortedness of `stableInsert`, with totality and transitivity of `le`
required only on the elements involved. -/
theorem stableInsert_pairwise {α : Type} (le : α → α → Bool) (a : α) (l : List α)
    (hl : List.Pairwise (fun x y => le x y = true) l)
    (htot : ∀ x ∈ a :: l, ∀ y ∈ a :: l, le x y = true ∨ le y x = true)
    (htr : ∀ x ∈ a :: l, ∀ y ∈ a :: l, ∀ z ∈ a :: l,
      le x y = true → le y z = true → le x z = true) :
    List.Pairwise (fun x y => le x y = true) (stableInsert le a l) := by
  induction l with
  | nil => simp [stableInsert]
  | cons b t ih =>
    rcases List.pairwise_cons.mp hl with ⟨hbt, ht⟩
    cases h : le a b with
    | true =>
      simp only [stableInsert, h, if_true]
      refine List.pairwise_cons.mpr ⟨?_, hl⟩
      intro y hy
      rcases List.mem_cons.mp hy with rfl | hy
      · exact h
      · exact htr a (by simp) b (by simp) y (by simp [hy]) h (hbt y hy)
    | false =>
      simp only [stableInsert, h, Bool.false_eq_true, if_false]
      have hba : le b a = true := by
        rcases htot a (by simp) b (by simp) with h1 | h1
        · exact absurd h1 (by simp [h])
        · exact h1
      refine List.pairwise_cons.mpr ⟨?_, ?_⟩
      · intro y hy
        rcases (stableInsert_mem le a t y).mp hy with rfl | hy
        · exact hba
        · exact hbt y hy
      · have hmem : ∀ w, w ∈ a :: t → w ∈ a :: b :: t := by
          intro w hw
          rcases List.mem_cons.mp hw with rfl | hw
          · simp
          · simp [hw]
        refine ih ht ?_ ?_
        · intro x hx y hy
          exact htot x (hmem x hx) y (hmem y hy)
        · intro x hx y hy z hz
          exact htr x (hmem x hx) y (hmem y hy) z (hmem z hz)

/-- Sortedness of `stableSort`, with totality and transitivity of `le`
required only on the elements of the list being sorted. -/
theorem stableSort_pairwise {α : Type} (le : α → α → Bool) (l : List α)
    (htot : ∀ x ∈ l, ∀ y ∈ l, le x y = true ∨ le y x = true)
    (htr : ∀ x ∈ l, ∀ y ∈ l, ∀ z ∈ l,
      le x y = true → le y z = true → le x z = true) :
    List.Pairwise (fun x y => le x y = true) (stableSort le l) := by
  induction l with
  | nil => simp [stableSort]
  | cons a t ih =>
    have hsub : ∀ w, w ∈ a :: stableSort le t → w ∈ a :: t := by
      intro w hw
      rcases List.mem_cons.mp hw with rfl | hw
      · simp
      · simp [(stableSort_perm le t).mem_iff.mp hw]
    refine stableInsert_pairwise le a (stableSort le t) ?_ ?_ ?_
    · exact ih (fun x hx y hy => htot x (by simp [hx]) y (by simp [hy]))
        (fun x hx y hy z hz =>
          htr x (by simp [hx]) y (by simp [hy]) z (by simp [hz]))
    · intro x hx y hy
      exact htot x (hsub x hx) y (hsub y hy)
    · intro x hx y hy z hz
      exact htr x (hsub x hx) y (hsub y hy) z (hsub z hz)

/-! ## Resilient fetch layer (`src/app/services/http.server.ts`)

`adoFetchJson` is embedded as a pure function over the sequence of per-attempt
network outcomes.  `attempts i` is the outcome of the `i`-th call to `fetch`
(1-based): either an HTTP response (status, body text, optional Retry-After
header), a timeout/abort of that attempt, or a network error.  Backoff delays
do not influence control flow and are not modelled.  The function returns the
final result together with the number of `fetch` calls that were made. -/

/-- The fields of the `AdoHttpError` class. -/
structure AdoHttpErrorM where
  status : Nat
  url : String
  method : String
  attempt : Nat
  bodySnippet : Option String
  deriving DecidableEq, Repr

/-- The `Error.message` of an `AdoHttpError`
(template literal in the constructor). -/
def adoErrorMessage (e : AdoHttpErrorM) : String :=
  e.method ++ " " ++ e.url ++ " -> " ++ toString e.status ++
    " (attempt " ++ toString e.attempt ++ ")"

/-- Outcome of one `fetch` call. -/
inductive AttemptOutcome where
  | resp (status : Nat) (body : String) (retryAfter : Option String)
  | timeout
  | netError (msg : String)
  deriving DecidableEq, Repr

/-- Result of `adoFetchJson`: resolved JSON body, thrown `AdoHttpError`, or
thrown `AdoTimeoutError`. -/
inductive FetchResult where
  | ok (body : String)
  | httpError (e : AdoHttpErrorM)
  | timeoutError (e : AdoHttpErrorM)
  deriving DecidableEq, Repr

/-- `DEFAULT_MAX_ATTEMPTS = 4; // 1 attempt + 3 retries` -/
def DEFAULT_MAX_ATTEMPTS : Nat := 4

/-- `MAX_BODY_SNIPPET = 512` -/
def MAX_BODY_SNIPPET : Nat := 512

/-- `text.length > MAX_BODY_SNIPPET ? text.slice(0, MAX_BODY_SNIPPET) : text` -/
def truncateSnippet (text : String) : String :=
  if MAX_BODY_SNIPPET < text.length then (text.toList.take MAX_BODY_SNIPPET).asString
  else text

/-- The retry loop of `adoFetchJson`.  `attempt` is the loop counter, `fuel`
the number of remaining loop iterations (`DEFAULT_MAX_ATTEMPTS - attempt + 1`),
`lastSnippet` the running `lastBodySnippet`.  Every `throw` inside the `try`
block — including the structured error built for a non-retryable response — is
caught by the attempt's own `catch`, which rewraps any non-abort error into
`AdoHttpError { status: 500, ..., bodySnippet: String(err.message) }`. -/
def adoFetchJsonGo (url method : String) (attempts : Nat → AttemptOutcome) :
    Nat → Nat → Option String → FetchResult × Nat
  | attempt, 0, lastSnippet =>
    -- safety net after the loop (unreachable for fuel = 4)
    (.httpError ⟨500, url, method, DEFAULT_MAX_ATTEMPTS, lastSnippet⟩, attempt - 1)
  | attempt, fuel + 1, lastSnippet =>
    match attempts attempt with
    | .resp status body _retryAfter =>
      if 200 ≤ status ∧ status ≤ 299 then
        -- res.ok: parse and return the JSON body
        (.ok body, attempt)
      else
        let snippet := some (truncateSnippet body)
        if (status == 429 || 500 ≤ status) ∧ attempt < DEFAULT_MAX_ATTEMPTS then
          adoFetchJsonGo url method attempts (attempt + 1) fuel snippet
        else
          -- `throw new AdoHttpError({status, url, method, attempt, snippet})`
          -- is inside the `try`, so the catch rewraps it:
          let inner : AdoHttpErrorM := ⟨status, url, method, attempt, snippet⟩
          (.httpError ⟨500, url, method, attempt, some (adoErrorMessage inner)⟩,
            attempt)
    | .timeout =>
      (.timeoutError ⟨408, url, method, attempt, lastSnippet⟩, attempt)
    | .netError msg =>
      (.httpError ⟨500, url, method, attempt, some msg⟩, attempt)

/-- `adoFetchJson`: run the attempt loop from attempt 1. -/
def adoFetchJson (url method : String) (attempts : Nat → AttemptOutcome) :
    FetchResult × Nat :=
  adoFetchJsonGo url method attempts 1 DEFAULT_MAX_ATTEMPTS none

/-- **C1** (code_bug evidence).  For a first response whose status is a 4xx
other than 429, `adoFetchJson` makes no further attempt (exactly one fetch)
and fails with a structured error with `attempt = 1` — but, contrary to the
claim, the surfaced error carries `status = 500` (not the response's status)
and its `bodySnippet` is the inner error's message string (not the truncated
response body), because the structured error thrown at the end of the `try`
block is caught by the same attempt's `catch` and rewrapped. -/
theorem adoFetchJson_4xx_rewrapped (url method body : String) (ra : Option String)
    (s : Nat) (attempts : Nat → AttemptOutcome)
    (h1 : attempts 1 = .resp s body ra)
    (h400 : 400 ≤ s) (h499 : s ≤ 499) (h429 : s ≠ 429) :
    adoFetchJson url method attempts =
      (.httpError ⟨500, url, method, 1,
        some (adoErrorMessage ⟨s, url, method, 1, some (truncateSnippet body)⟩)⟩,
        1) := by
  have hok : ¬ (200 ≤ s ∧ s ≤ 299) := by omega
  have h429b : (s == 429) = false := by
    simp [Nat.beq_eq_true_eq]
    omega
  have h500 : ¬ (500 ≤ s) := by omega
  simp [adoFetchJson, adoFetchJsonGo, h1, hok, h429b, h500]

/-- Closed witness for `adoFetchJson_4xx_rewrapped` at a 404 response. -/
theorem adoFetchJson_4xx_rewrapped_witness :
    adoFetchJson "https://dev.azure.com/o/p" "GET"
        (fun _ => .resp 404 "Not found" none) =
      (.httpError ⟨500, "https://dev.azure.com/o/p", "GET", 1,
        some "GET https://dev.azure.com/o/p -> 404 (attempt 1)"⟩, 1) :=
  adoFetchJson_4xx_rewrapped "https://dev.azure.com/o/p" "GET" "Not found" none
    404 (fun _ => .resp 404 "Not found" none) rfl (by decide) (by decide) (by decide)

/-- **C2**.  If every attempt's HTTP response has a 5xx status, `adoFetchJson`
performs exactly `4` fetch attempts and then fails with a terminal structured
error whose `attempt` field equals `4`. -/
theorem adoFetchJson_5xx_four_attempts (url method : String)
    (attempts : Nat → AttemptOutcome)
    (h : ∀ i, 1 ≤ i → i ≤ 4 →
      ∃ s body ra, attempts i = .resp s body ra ∧ 500 ≤ s ∧ s ≤ 599) :
    ∃ e, adoFetchJson url method attempts = (.httpError e, 4) ∧
      e.attempt = 4 := by
  obtain ⟨s1, b1, r1, ha1, hs1, hs1'⟩ := h 1 (by omega) (by omega)
  obtain ⟨s2, b2, r2, ha2, hs2, hs2'⟩ := h 2 (by omega) (by omega)
  obtain ⟨s3, b3, r3, ha3, hs3, hs3'⟩ := h 3 (by omega) (by omega)
  obtain ⟨s4, b4, r4, ha4, hs4, hs4'⟩ := h 4 (by omega) (by omega)
  have hok1 : ¬ (200 ≤ s1 ∧ s1 ≤ 299) := by omega
  have hok2 : ¬ (200 ≤ s2 ∧ s2 ≤ 299) := by omega
  have hok3 : ¬ (200 ≤ s3 ∧ s3 ≤ 299) := by omega
  have hok4 : ¬ (200 ≤ s4 ∧ s4 ≤ 299) := by omega
  refine ⟨⟨500, url, method, 4,
    some (adoErrorMessage ⟨s4, url, method, 4, some (truncateSnippet b4)⟩)⟩, ?_, rfl⟩
  simp [adoFetchJson, adoFetchJsonGo, ha1, ha2, ha3, ha4, hok1, hok2, hok3, hok4,
    hs1, hs2, hs3, hs4, DEFAULT_MAX_ATTEMPTS]

/-- Closed witness for `adoFetchJson_5xx_four_attempts`: persistent 503. -/
theorem adoFetchJson_5xx_four_attempts_witness :
    ∃ e, adoFetchJson "https://dev.azure.com/o/q" "GET"
        (fun _ => .resp 503 "Busy" none) = (.httpError e, 4) ∧ e.attempt = 4 :=
  adoFetchJson_5xx_four_attempts "https://dev.azure.com/o/q" "GET"
    (fun _ => .resp 503 "Busy" none)
    (fun _ _ _ => ⟨503, "Busy", none, rfl, by decide, by decide⟩)

/-! ## TTL/LRU cache with request coalescing (`src/app/services/cache.server.ts`)

JS is single-threaded, so the body of `getOrSet` from entry up to `await p`
runs atomically, and the continuation after `await p` (store write / in-flight
cleanup) runs atomically.  The model is a state machine over those atomic
steps.  A pending promise is identified by a fresh numeric id (`nextPid`
plays the role of the promise's object identity).  Lists model JS `Map`s,
with insertion order at the tail (most recently inserted/used last). -/

/-- `Entry<T> = { value?: T; expiresAt: number }` -/
structure EntryC (α : Type) where
  value : Option α
  expiresAt : Int
  deriving DecidableEq, Repr

/-- The module-level mutable state: `store`, `inFlight`, `maxEntries`,
plus a fresh-id counter standing in for promise identity. -/
structure CacheState (α : Type) where
  store : List (String × EntryC α)
  inFlight : List (String × Nat)
  maxEntries : Nat
  nextPid : Nat
  deriving DecidableEq, Repr

/-- `touch`: move the key to the most-recently-used position. -/
def touchStore {α : Type} (store : List (String × EntryC α)) (key : String)
    (entry : EntryC α) : List (String × EntryC α) :=
  eraseKey store key ++ [(key, entry)]

/-- `trim`: evict least-recently-used entries (list head) until within
capacity. -/
def trimStore {β : Type} (maxEntries : Nat) :
    List (String × β) → List (String × β)
  | [] => []
  | e :: rest =>
    if rest.length + 1 ≤ maxEntries then e :: rest else trimStore maxEntries rest

/-- Outcome of the synchronous prefix of one `getOrSet` call:
a fresh-value cache hit, joining an already in-flight load (no loader
invocation), or starting a new load (`loader()` is invoked exactly on this
path, and the new promise is registered in `inFlight`). -/
inductive GetOrSetOutcome (α : Type) where
  | hit (v : α)
  | joined (pid : Nat)
  | started (pid : Nat)
  deriving DecidableEq, Repr

/-- The synchronous prefix of `getOrSet(key, ttlMs, loader)` (no `bypass`):
everything the function executes before its first `await`, as one atomic
step.  `now` is the value of `Date.now()` at entry. -/
def getOrSetStep {α : Type} (σ : CacheState α) (key : String) (now : Int) :
    CacheState α × GetOrSetOutcome α :=
  match lookupList σ.store key with
  | some existing =>
    if h : existing.value.isSome ∧ now < existing.expiresAt then
      -- fresh value: touch and return it
      ({ σ with store := touchStore σ.store key existing },
        .hit (existing.value.get h.1))
    else
      -- expired: drop the slot, then fall through to the in-flight check
      let σ1 := { σ with store := eraseKey σ.store key }
      match lookupList σ1.inFlight key with
      | some pid => (σ1, .joined pid)
      | none =>
        ({ σ1 with
            inFlight := σ1.inFlight ++ [(key, σ.nextPid)],
            nextPid := σ.nextPid + 1 }, .started σ.nextPid)
  | none =>
    match lookupList σ.inFlight key with
    | some pid => (σ, .joined pid)
    | none =>
      ({ σ with
          inFlight := σ.inFlight ++ [(key, σ.nextPid)],
          nextPid := σ.nextPid + 1 }, .started σ.nextPid)

/-- The continuation of `getOrSet` after `await p` resolves with `value`:
remove the in-flight marker, store the value with
`expiresAt = Date.now() + max(0, ttlMs)`, touch, trim. -/
def getOrSetResolve {α : Type} (σ : CacheState α) (key : String) (value : α)
    (now ttlMs : Int) : CacheState α :=
  let entry : EntryC α := ⟨some value, now + max 0 ttlMs⟩
  { σ with
    inFlight := eraseKey σ.inFlight key,
    store := trimStore σ.maxEntries (touchStore σ.store key entry) }

/-- The continuation of `getOrSet` after `await p` rejects: remove the
in-flight marker and propagate the failure. -/
def getOrSetReject {α : Type} (σ : CacheState α) (key : String) : CacheState α :=
  { σ with inFlight := eraseKey σ.inFlight key }

theorem lookupList_append_single {β : Type} (l : List (String × β)) (k : String)
    (v : β) (h : lookupList l k = none) :
    lookupList (l ++ [(k, v)]) k = some v := by
  induction l with
  | nil => simp [lookupList]
  | cons p rest ih =>
    obtain ⟨k', v'⟩ := p
    by_cases hk : k' = k
    · simp [lookupList, hk] at h
    · simp only [lookupList, List.cons_append, if_neg hk] at h ⊢
      exact ih h

theorem lookupList_eraseKey_of_none {β : Type} (l : List (String × β)) (k : String)
    (h : lookupList l k = none) : lookupList (eraseKey l k) k = none := by
  induction l with
  | nil => simp [eraseKey, lookupList]
  | cons p rest ih =>
    obtain ⟨k', v'⟩ := p
    by_cases hk : k' = k
    · simp [lookupList, hk] at h
    · simp only [lookupList, eraseKey, if_neg hk] at h ⊢
      exact ih h

theorem lookupList_trimStore_last {β : Type} (m : Nat) (k : String) (v : β) :
    ∀ (l : List (String × β)), 1 ≤ m → lookupList l k = none →
    lookupList (trimStore m (l ++ [(k, v)])) k = some v := by
  intro l
  induction l with
  | nil =>
    intro hm _
    simp [trimStore, hm, lookupList]
  | cons p rest ih =>
    intro hm h
    obtain ⟨k', v'⟩ := p
    have hk : ¬ k' = k := by
      intro hkk
      simp [lookupList, hkk] at h
    simp only [lookupList, if_neg hk] at h
    simp only [List.cons_append, trimStore, List.append_eq]
    by_cases hlen : (rest ++ [(k, v)]).length + 1 ≤ m
    · simp only [if_pos hlen, lookupList, if_neg hk]
      exact lookupList_append_single rest k v h
    · simp only [if_neg hlen]
      exact ih hm h

/-- **C3**.  (a) While a load for `key` is in flight, any `getOrSet` call for
`key` — even when the existing cache slot for `key` is absent, valueless, or
expired — returns the very same pending promise (`.joined pid`) and does not
invoke its own loader (only the `.started` outcome invokes a loader).
(b) Consequently, starting from a state with no slot and no in-flight load
for `key`, of two concurrent `getOrSet` calls the first starts the load
(invoking the loader once) and the second joins exactly that pending promise,
so both callers receive the identical resolved value of that one promise;
after the load resolves with `v`, the store holds `v` for `key`. -/
theorem getOrSet_coalesces {α : Type} (σ : CacheState α) (key : String)
    (now : Int) (pid : Nat)
    (hin : lookupList σ.inFlight key = some pid)
    (hstale : ∀ e, lookupList σ.store key = some e →
      ¬ (e.value.isSome ∧ now < e.expiresAt)) :
    (getOrSetStep σ key now).2 = .joined pid ∧
    (∀ (σ0 : CacheState α) (now0 now1 : Int),
      lookupList σ0.store key = none → lookupList σ0.inFlight key = none →
      (getOrSetStep σ0 key now0).2 = .started σ0.nextPid ∧
      (getOrSetStep (getOrSetStep σ0 key now0).1 key now1).2 =
        .joined σ0.nextPid ∧
      ∀ (v : α) (now2 ttl : Int), 1 ≤ σ0.maxEntries →
        lookupList
          (getOrSetResolve (getOrSetStep σ0 key now0).1 key v now2 ttl).store
          key = some ⟨some v, now2 + max 0 ttl⟩) := by
  constructor
  · unfold getOrSetStep
    cases hs : lookupList σ.store key with
    | none => simp [hs, hin]
    | some e =>
      have hne := hstale e hs
      simp only [hs]
      rw [dif_neg hne]
      simp [hin]
  · intro σ0 now0 now1 hs0 hf0
    have hstep1 : getOrSetStep σ0 key now0 =
        ({ σ0 with
            inFlight := σ0.inFlight ++ [(key, σ0.nextPid)],
            nextPid := σ0.nextPid + 1 }, .started σ0.nextPid) := by
      simp [getOrSetStep, hs0, hf0]
    refine ⟨by rw [hstep1], ?_, ?_⟩
    · rw [hstep1]
      simp [getOrSetStep, hs0, lookupList_append_single _ _ _ hf0]
    · intro v now2 ttl hmax
      rw [hstep1]
      simp only [getOrSetResolve, touchStore]
      exact lookupList_trimStore_last _ _ _ _ hmax
        (lookupList_eraseKey_of_none _ _ hs0)

/-- Closed witness for `getOrSet_coalesces`: a state whose slot for `"k"` is
expired (`expiresAt = 5 < now = 10`) while a load (promise id `0`) is in
flight; the call joins the pending load, and the two-caller scenario from the
empty state invokes the loader once with both callers sharing promise id 0. -/
theorem getOrSet_coalesces_witness :
    (getOrSetStep
      (⟨[("k", ⟨some 7, 5⟩)], [("k", 0)], 500, 1⟩ : CacheState Nat) "k" 10).2 =
        .joined 0 ∧
    (getOrSetStep (⟨[], [], 500, 0⟩ : CacheState Nat) "k" 0).2 = .started 0 ∧
    (getOrSetStep
      (getOrSetStep (⟨[], [], 500, 0⟩ : CacheState Nat) "k" 0).1 "k" 1).2 =
        .joined 0 ∧
    lookupList
      (getOrSetResolve
        (getOrSetStep (⟨[], [], 500, 0⟩ : CacheState Nat) "k" 0).1
        "k" 42 9 1000).store "k" = some ⟨some 42, 1009⟩ := by
  have h := getOrSet_coalesces
    (⟨[("k", ⟨some 7, 5⟩)], [("k", 0)], 500, 1⟩ : CacheState Nat) "k" 10 0
    (by decide)
    (by
      intro e he
      simp [lookupList] at he
      rw [← he]
      decide)
  refine ⟨h.1, ?_, ?_, ?_⟩
  · exact (h.2 (⟨[], [], 500, 0⟩ : CacheState Nat) 0 1 rfl rfl).1
  · exact (h.2 (⟨[], [], 500, 0⟩ : CacheState Nat) 0 1 rfl rfl).2.1
  · have := (h.2 (⟨[], [], 500, 0⟩ : CacheState Nat) 0 1 rfl rfl).2.2 42 9 1000
      (by decide)
    simpa using this

/-! ## Timeline reconstruction engine (`src/unnamed/part_005`,
`~/models/workitem-timeline`)

Dates are `Int` milliseconds; `new Date(string)` is the environment
parameter `parse`.  A `WorkItemUpdate`'s open `fields` map is embedded by its
only two fields the engine reads (`System.State` / `System.AssignedTo`
`newValue`s); a field's `newValue : unknown` is a `JsVal`. -/

/-- An untyped JS value as it can appear in `fields[..].newValue`. -/
inductive JsVal where
  | nul
  | str (s : String)
  | obj (displayName uniqueName mailAddress : Option String)
  deriving DecidableEq, Repr

/-- `WorkItemUpdate`, restricted to what the timeline engine reads. -/
structure WorkItemUpdate where
  revisedDate : Option String
  stateNewValue : Option JsVal
  assigneeNewValue : Option JsVal
  deriving DecidableEq, Repr

/-- `asString`: a trimmed non-empty string, else `undefined`. -/
def asString : Option String → Option String
  | some s => if jsTrim s = "" then none else some (jsTrim s)
  | none => none

/-- `extractState`: `undefined`/`null` pass through, strings are trimmed,
any other value goes through JS `String(value)`. -/
def extractState : Option JsVal → Option String
  | none => none
  | some .nul => none
  | some (.str s) => some s.trim
  | some (.obj _ _ _) => some "[object Object]"

/-- `extractAssignee`: trimmed string, or `displayName || uniqueName ||
mailAddress` of an identity object. -/
def extractAssignee : Option JsVal → Option String
  | none => none
  | some .nul => none
  | some (.str s) => if jsTrim s = "" then none else some (jsTrim s)
  | some (.obj d u m) =>
    match asString d with
    | some x => some x
    | none =>
      match asString u with
      | some x => some x
      | none => asString m

/-- `NormalizedUpdate` / `Event`. -/
structure NormalizedUpdate where
  date : Int
  stateRaw : Option String
  assignee : Option String
  deriving DecidableEq, Repr

/-- `toDate`: only strings parse, and only to a finite timestamp. -/
def toDate (parse : String → Option Int) : Option String → Option Int
  | none => none
  | some s => parse s

/-- `normalizeAndSort`: drop updates with unparseable dates, then sort
ascending by timestamp (stable JS sort with comparator
`a.date - b.date`). -/
def normalizeAndSort (parse : String → Option Int)
    (updates : List WorkItemUpdate) : List NormalizedUpdate :=
  let out := updates.filterMap (fun u =>
    match toDate parse u.revisedDate with
    | none => none
    | some d =>
      some ⟨d, extractState u.stateNewValue, extractAssignee u.assigneeNewValue⟩)
  stableSort (fun a b => a.date ≤ b.date) out

/-- Field-wise carry-forward: a field present in the newer record overrides
the carried value (`if (x !== undefined) v = x`). -/
def override (new old : Option String) : Option String :=
  match new with
  | some s => some s
  | none => old

/-- Merging two updates that share a timestamp: later record wins
field-by-field. -/
def mergeEvent (cur r : NormalizedUpdate) : NormalizedUpdate :=
  { date := cur.date
    stateRaw := override r.stateRaw cur.stateRaw
    assignee := override r.assignee cur.assignee }

/-- Loop of `groupEvents`. -/
def groupEventsGo (cur : NormalizedUpdate) :
    List NormalizedUpdate → List NormalizedUpdate
  | [] => [cur]
  | r :: rs =>
    if r.date = cur.date then groupEventsGo (mergeEvent cur r) rs
    else cur :: groupEventsGo r rs

/-- `groupEvents`: merge updates sharing an identical timestamp. -/
def groupEvents : List NormalizedUpdate → List NormalizedUpdate
  | [] => []
  | r :: rs => groupEventsGo r rs

/-- Timeline `Segment`. -/
structure Segment where
  state : String
  assignee : Option String
  tStart : Int
  tEnd : Int
  deriving DecidableEq, Repr

/-- `StateMapping`. -/
structure StateMapping where
  toDo : String
  inProgress : String
  done : String
  deriving DecidableEq, Repr

/-- `UNKNOWN_STATE = "unknown"` -/
def UNKNOWN_STATE : String := "unknown"

/-- `normalizeState`: falsy raw value gives the unknown sentinel; otherwise
trim and compare case-insensitively against the caller's three-way mapping,
non-matching values pass through. -/
def normalizeState (raw : Option String) (mapping : StateMapping) : String :=
  match raw with
  | none => UNKNOWN_STATE
  | some s =>
    if s = "" then UNKNOWN_STATE
    else
      let r := jsTrim s
      if eqAccent r mapping.toDo then "toDo"
      else if eqAccent r mapping.inProgress then "inProgress"
      else if eqAccent r mapping.done then "done"
      else r

/-- The `for` loop of `buildBaseSegments`: `stateRaw`/`assignee` are the
carried-forward raw values, `segStart`/`segState`/`segAssignee` the open
segment, `prevDate` the date of the previously processed event (used for the
final `push` at the last update's timestamp). -/
def segLoop (mapping : StateMapping) (stateRaw assignee : Option String)
    (segStart : Int) (segState : String) (segAssignee : Option String)
    (prevDate : Int) : List NormalizedUpdate → List Segment
  | [] => [⟨segState, segAssignee, segStart, prevDate⟩]
  | e :: rest =>
    if normalizeState (override e.stateRaw stateRaw) mapping ≠ segState ∨
        override e.assignee assignee ≠ segAssignee then
      ⟨segState, segAssignee, segStart, e.date⟩ ::
        segLoop mapping (override e.stateRaw stateRaw) (override e.assignee assignee)
          e.date (normalizeState (override e.stateRaw stateRaw) mapping)
          (override e.assignee assignee) e.date rest
    else
      segLoop mapping (override e.stateRaw stateRaw) (override e.assignee assignee)
        segStart segState segAssignee e.date rest

/-- `buildBaseSegments` (assumes a non-empty event list, as its caller
guarantees; returns `[]` on `[]`, which the caller short-circuits anyway). -/
def buildBaseSegments (events : List NormalizedUpdate)
    (mapping : StateMapping) : List Segment :=
  match events with
  | [] => []
  | e0 :: rest =>
    segLoop mapping e0.stateRaw e0.assignee e0.date
      (normalizeState e0.stateRaw mapping) e0.assignee e0.date rest

/-- `clipToWindow` for the window `[winFrom, winTo]`. -/
def clipToWindow (segments : List Segment) (winFrom winTo : Int) : List Segment :=
  if winTo ≤ winFrom then []
  else segments.filterMap (fun s =>
    let start := max s.tStart winFrom
    let stop := min s.tEnd winTo
    if start < stop then some ⟨s.state, s.assignee, start, stop⟩ else none)

/-- `buildSegments`. -/
def buildSegments (parse : String → Option Int)
    (updates : List WorkItemUpdate) (mapping : StateMapping)
    (window : Option (Int × Int)) : List Segment :=
  let events := groupEvents (normalizeAndSort parse updates)
  if events.isEmpty then []
  else
    let base := buildBaseSegments events mapping
    match window with
    | some (f, t) => clipToWindow base f t
    | none => base

/-! ### Specification-side reformulation for the boundary claim

Modelled from the spec: the running effective `(normalized state, assignee)`
pair of each event under carry-forward semantics, and the segment sequence
obtained by opening a boundary exactly where that pair changes. -/

/-- The effective `(normalized state, assignee)` pair after each event,
paired with the event's timestamp (carry-forward of unspecified fields). -/
def runningPairs (mapping : StateMapping) (stateRaw assignee : Option String) :
    List NormalizedUpdate → List ((String × Option String) × Int)
  | [] => []
  | e :: rest =>
    ((normalizeState (override e.stateRaw stateRaw) mapping,
        override e.assignee assignee), e.date) ::
      runningPairs mapping (override e.stateRaw stateRaw)
        (override e.assignee assignee) rest

/-- Chunk a pair/date sequence into segments: a boundary exactly where the
pair changes; the open segment closes at the date of the changing event. -/
def chunkRunsGo (p : String × Option String) (start prevDate : Int) :
    List ((String × Option String) × Int) → List Segment
  | [] => [⟨p.1, p.2, start, prevDate⟩]
  | (q, d) :: rest =>
    if q = p then chunkRunsGo p start d rest
    else ⟨p.1, p.2, start, d⟩ :: chunkRunsGo q d d rest

/-- Segments as described by the spec: boundaries only at effective-pair
changes, first segment starting at the first event, last ending at the last
event. -/
def segmentsSpec (mapping : StateMapping) (events : List NormalizedUpdate) :
    List Segment :=
  match events with
  | [] => []
  | e0 :: rest =>
    let stateRaw := e0.stateRaw
    let assignee := e0.assignee
    chunkRunsGo (normalizeState stateRaw mapping, assignee) e0.date e0.date
      (runningPairs mapping stateRaw assignee rest)

/-- `lastDate d l`: date of the last element of `l`, or `d` if `l = []`. -/
def lastDate (d : Int) : List NormalizedUpdate → Int
  | [] => d
  | e :: rs => lastDate e.date rs

theorem segLoop_eq_chunkRuns (mapping : StateMapping) :
    ∀ (rest : List NormalizedUpdate) (sr asg : Option String)
      (segStart prevDate : Int),
      segLoop mapping sr asg segStart (normalizeState sr mapping) asg prevDate rest =
        chunkRunsGo (normalizeState sr mapping, asg) segStart prevDate
          (runningPairs mapping sr asg rest) := by
  intro rest
  induction rest with
  | nil => intro sr asg segStart prevDate; rfl
  | cons e rs ih =>
    intro sr asg segStart prevDate
    by_cases hc : normalizeState (override e.stateRaw sr) mapping ≠
        normalizeState sr mapping ∨ override e.assignee asg ≠ asg
    · have hq : ¬ ((normalizeState (override e.stateRaw sr) mapping,
          override e.assignee asg) = (normalizeState sr mapping, asg)) := by
        intro he
        rcases Prod.mk.injEq .. ▸ he with ⟨h1, h2⟩
        rcases hc with hc | hc
        · exact hc h1
        · exact hc h2
      simp only [segLoop, runningPairs, chunkRunsGo, if_pos hc, if_neg hq]
      rw [ih]
    · have heq : normalizeState (override e.stateRaw sr) mapping =
          normalizeState sr mapping ∧ override e.assignee asg = asg := by
        by_cases h1 : normalizeState (override e.stateRaw sr) mapping =
            normalizeState sr mapping
        · by_cases h2 : override e.assignee asg = asg
          · exact ⟨h1, h2⟩
          · exact absurd (Or.inr h2) hc
        · exact absurd (Or.inl h1) hc
      have hq : (normalizeState (override e.stateRaw sr) mapping,
          override e.assignee asg) = (normalizeState sr mapping, asg) := by
        rw [heq.1, heq.2]
      simp only [segLoop, runningPairs, chunkRunsGo, if_neg hc, if_pos hq]
      rw [heq.2]
      have hI := ih (override e.stateRaw sr) asg segStart e.date
      rw [heq.1] at hI
      exact hI

/-- `lastDate` is an upper bound when the date list is sorted. -/
theorem le_lastDate : ∀ (rs : List NormalizedUpdate) (d : Int),
    List.Pairwise (fun a b : Int => a ≤ b) (d :: rs.map NormalizedUpdate.date) →
    d ≤ lastDate d rs := by
  intro rs
  induction rs with
  | nil => intro d _; exact le_refl d
  | cons e t ih =>
    intro d h
    rcases List.pairwise_cons.mp h with ⟨hd, ht⟩
    have h1 : d ≤ e.date := hd e.date (by simp)
    exact h1.trans (ih e.date ht)

/-- Main invariants of the `buildBaseSegments` loop. -/
theorem segLoop_props (mapping : StateMapping) :
    ∀ (rest : List NormalizedUpdate) (sr asg : Option String) (segStart : Int)
      (segState : String) (segAsg : Option String) (prevDate : Int),
      segStart ≤ prevDate →
      List.Pairwise (fun a b : Int => a ≤ b)
        (prevDate :: rest.map NormalizedUpdate.date) →
      (∃ s t, segLoop mapping sr asg segStart segState segAsg prevDate rest =
          s :: t ∧ s.tStart = segStart) ∧
      (∀ s ∈ segLoop mapping sr asg segStart segState segAsg prevDate rest,
        segStart ≤ s.tStart ∧ s.tStart ≤ s.tEnd ∧
          s.tEnd ≤ lastDate prevDate rest) ∧
      List.Pairwise (fun a b => a.tEnd ≤ b.tStart)
        (segLoop mapping sr asg segStart segState segAsg prevDate rest) ∧
      (∃ init s, segLoop mapping sr asg segStart segState segAsg prevDate rest =
          init ++ [s] ∧ s.tEnd = lastDate prevDate rest) := by
  intro rest
  induction rest with
  | nil =>
    intro sr asg segStart segState segAsg prevDate hstart _
    refine ⟨⟨_, _, rfl, rfl⟩, ?_, ?_, ⟨[], _, rfl, rfl⟩⟩
    · intro s hs
      rcases List.mem_singleton.mp hs with rfl
      exact ⟨le_refl _, hstart, le_refl _⟩
    · exact List.pairwise_cons.mpr
        ⟨fun s hs => absurd hs (List.not_mem_nil s), List.Pairwise.nil⟩
  | cons e rs ih =>
    intro sr asg segStart segState segAsg prevDate hstart hdates
    rcases List.pairwise_cons.mp hdates with ⟨hprev, htail⟩
    have hle : prevDate ≤ e.date := hprev e.date (by simp)
    have hlast : lastDate prevDate (e :: rs) = lastDate e.date rs := rfl
    by_cases hc : normalizeState (override e.stateRaw sr) mapping ≠ segState ∨
        override e.assignee asg ≠ segAsg
    · -- boundary at e
      have hrec := ih (override e.stateRaw sr) (override e.assignee asg) e.date
        (normalizeState (override e.stateRaw sr) mapping)
        (override e.assignee asg) e.date (le_refl _) htail
      rcases hrec with ⟨⟨s1, t1, hcons, hs1⟩, hbounds, hpw, ⟨init1, slast, happ, hsl⟩⟩
      simp only [segLoop, if_pos hc]
      refine ⟨⟨_, _, rfl, rfl⟩, ?_, ?_, ?_⟩
      · intro s hs
        rcases List.mem_cons.mp hs with rfl | hs
        · exact ⟨le_refl _, hstart.trans hle,
            (le_lastDate rs e.date htail)⟩
        · rcases hbounds s hs with ⟨h1, h2, h3⟩
          exact ⟨(hstart.trans hle).trans h1, h2, h3⟩
      · refine List.pairwise_cons.mpr ⟨?_, hpw⟩
        intro s hs
        exact (hbounds s hs).1
      · exact ⟨⟨segState, segAsg, segStart, e.date⟩ :: init1, slast,
          by rw [happ]; rfl, hsl⟩
    · -- no boundary: continue the open segment
      have hrec := ih (override e.stateRaw sr) (override e.assignee asg) segStart
        segState segAsg e.date (hstart.trans hle) htail
      simp only [segLoop, if_neg hc]
      exact hrec

theorem lastDate_mem : ∀ (rest : List NormalizedUpdate) (d : Int),
    lastDate d rest = d ∨ ∃ e ∈ rest, lastDate d rest = e.date := by
  intro rest
  induction rest with
  | nil => intro d; exact Or.inl rfl
  | cons e rs ih =>
    intro d
    rcases ih e.date with h | ⟨e', he', h⟩
    · exact Or.inr ⟨e, by simp, h⟩
    · exact Or.inr ⟨e', by simp [he'], h⟩

theorem all_le_lastDate : ∀ (rest : List NormalizedUpdate) (d : Int),
    List.Pairwise (fun a b : Int => a ≤ b) (d :: rest.map NormalizedUpdate.date) →
    ∀ e ∈ rest, e.date ≤ lastDate d rest := by
  intro rest
  induction rest with
  | nil => intro d _ e he; exact absurd he (List.not_mem_nil e)
  | cons e rs ih =>
    intro d h e' he'
    rcases List.pairwise_cons.mp h with ⟨_, htail⟩
    rcases List.mem_cons.mp he' with rfl | he'
    · exact le_lastDate rs e'.date htail
    · exact ih e.date htail e' he'

/-- **C4**.  For every non-empty, chronologically sorted event sequence,
`buildBaseSegments` equals the spec-side construction `segmentsSpec` that
creates a boundary exactly where the carried-forward effective
`(normalized state, assignee)` pair changes; moreover the first segment
starts at the earliest event's timestamp and the last segment ends at the
latest event's timestamp (each endpoint is some event's date, bounded by all
event dates — never beyond observed data). -/
theorem buildBaseSegments_boundaries (mapping : StateMapping)
    (events : List NormalizedUpdate) (hne : events ≠ [])
    (hsort : List.Pairwise (fun a b : NormalizedUpdate => a.date ≤ b.date) events) :
    buildBaseSegments events mapping = segmentsSpec mapping events ∧
    (∃ s t, buildBaseSegments events mapping = s :: t ∧
      (∃ e ∈ events, s.tStart = e.date) ∧ ∀ e ∈ events, s.tStart ≤ e.date) ∧
    (∃ init s, buildBaseSegments events mapping = init ++ [s] ∧
      (∃ e ∈ events, s.tEnd = e.date) ∧ ∀ e ∈ events, e.date ≤ s.tEnd) := by
  match events, hne with
  | e0 :: rest, _ =>
    have hdates : List.Pairwise (fun a b : Int => a ≤ b)
        (e0.date :: rest.map NormalizedUpdate.date) := by
      exact (List.pairwise_map).mpr hsort
    have hprops := segLoop_props mapping rest e0.stateRaw e0.assignee e0.date
      (normalizeState e0.stateRaw mapping) e0.assignee e0.date (le_refl _) hdates
    rcases hprops with ⟨⟨s1, t1, hcons, hs1⟩, hbounds, _, ⟨init1, slast, happ, hsl⟩⟩
    refine ⟨?_, ?_, ?_⟩
    · show segLoop mapping e0.stateRaw e0.assignee e0.date
        (normalizeState e0.stateRaw mapping) e0.assignee e0.date rest =
        segmentsSpec mapping (e0 :: rest)
      rw [segLoop_eq_chunkRuns]
      rfl
    · refine ⟨s1, t1, hcons, ⟨e0, by simp, hs1⟩, ?_⟩
      intro e he
      rw [hs1]
      rcases List.mem_cons.mp he with rfl | he
      · exact le_refl _
      · exact List.rel_of_pairwise_cons hsort he
    · refine ⟨init1, slast, happ, ?_, ?_⟩
      · rcases lastDate_mem rest e0.date with h | ⟨e', he', h⟩
        · exact ⟨e0, by simp, by rw [hsl, h]⟩
        · exact ⟨e', by simp [he'], by rw [hsl, h]⟩
      · intro e he
        rw [hsl]
        rcases List.mem_cons.mp he with rfl | he
        · exact le_lastDate rest e.date hdates
        · exact all_le_lastDate rest e0.date hdates e he

/-- Closed witness for `buildBaseSegments_boundaries`: three events
(state `A` at 0; assignee `X` added at 5 — a boundary because the effective
pair changes; state `B` at 9). -/
theorem buildBaseSegments_boundaries_witness :
    buildBaseSegments
        [⟨0, some "A", none⟩, ⟨5, none, some "X"⟩, ⟨9, some "B", none⟩]
        ⟨"To Do", "Doing", "Done"⟩ =
      segmentsSpec ⟨"To Do", "Doing", "Done"⟩
        [⟨0, some "A", none⟩, ⟨5, none, some "X"⟩, ⟨9, some "B", none⟩] ∧
    buildBaseSegments
        [⟨0, some "A", none⟩, ⟨5, none, some "X"⟩, ⟨9, some "B", none⟩]
        ⟨"To Do", "Doing", "Done"⟩ =
      [⟨"A", none, 0, 5⟩, ⟨"A", some "X", 5, 9⟩, ⟨"B", some "X", 9, 9⟩] := by
  have h := buildBaseSegments_boundaries ⟨"To Do", "Doing", "Done"⟩
    [⟨0, some "A", none⟩, ⟨5, none, some "X"⟩, ⟨9, some "B", none⟩]
    (by simp) (by decide)
  exact ⟨h.1, by decide⟩

theorem normalizeAndSort_sorted (parse : String → Option Int)
    (updates : List WorkItemUpdate) :
    List.Pairwise (fun a b : NormalizedUpdate => a.date ≤ b.date)
      (normalizeAndSort parse updates) := by
  unfold normalizeAndSort
  have h := stableSort_pairwise
    (fun a b : NormalizedUpdate => decide (a.date ≤ b.date))
    (updates.filterMap (fun u =>
      match toDate parse u.revisedDate with
      | none => none
      | some d =>
        some ⟨d, extractState u.stateNewValue, extractAssignee u.assigneeNewValue⟩))
    (by
      intro x _ y _
      rcases le_total x.date y.date with h | h
      · exact Or.inl (decide_eq_true h)
      · exact Or.inr (decide_eq_true h))
    (by
      intro x _ y _ z _ h1 h2
      exact decide_eq_true ((of_decide_eq_true h1).trans (of_decide_eq_true h2)))
  exact h.imp (fun hxy => of_decide_eq_true hxy)

theorem groupEventsGo_sorted :
    ∀ (rest : List NormalizedUpdate) (cur : NormalizedUpdate),
      (∀ r ∈ rest, cur.date ≤ r.date) →
      List.Pairwise (fun a b : NormalizedUpdate => a.date ≤ b.date) rest →
      (∀ x ∈ groupEventsGo cur rest, cur.date ≤ x.date) ∧
      List.Pairwise (fun a b : NormalizedUpdate => a.date < b.date)
        (groupEventsGo cur rest) := by
  intro rest
  induction rest with
  | nil =>
    intro cur _ _
    refine ⟨?_, ?_⟩
    · intro x hx
      rcases List.mem_singleton.mp hx with rfl
      exact le_refl _
    · exact List.pairwise_cons.mpr
        ⟨fun s hs => absurd hs (List.not_mem_nil s), List.Pairwise.nil⟩
  | cons r rs ih =>
    intro cur hall hp
    rcases List.pairwise_cons.mp hp with ⟨hr, hrs⟩
    by_cases hd : r.date = cur.date
    · have hmerge : (mergeEvent cur r).date = cur.date := rfl
      have hrec := ih (mergeEvent cur r)
        (by
          intro x hx
          rw [hmerge]
          exact hall x (by simp [hx]))
        hrs
      simp only [groupEventsGo, if_pos hd]
      rw [hmerge] at hrec
      exact hrec
    · have hcr : cur.date < r.date :=
        lt_of_le_of_ne (hall r (by simp)) (fun h => hd h.symm)
      have hrec := ih r hr hrs
      simp only [groupEventsGo, if_neg hd]
      refine ⟨?_, ?_⟩
      · intro x hx
        rcases List.mem_cons.mp hx with rfl | hx
        · exact le_refl _
        · exact hcr.le.trans (hrec.1 x hx)
      · exact List.pairwise_cons.mpr
          ⟨fun x hx => lt_of_lt_of_le hcr (hrec.1 x hx), hrec.2⟩

theorem groupEvents_sorted (l : List NormalizedUpdate)
    (h : List.Pairwise (fun a b : NormalizedUpdate => a.date ≤ b.date) l) :
    List.Pairwise (fun a b : NormalizedUpdate => a.date < b.date)
      (groupEvents l) := by
  cases l with
  | nil => exact List.Pairwise.nil
  | cons r rs =>
    rcases List.pairwise_cons.mp h with ⟨hr, hrs⟩
    exact (groupEventsGo_sorted rs r hr hrs).2

theorem clipToWindow_mem (segments : List Segment) (winFrom winTo : Int)
    (s' : Segment) (h : s' ∈ clipToWindow segments winFrom winTo) :
    s'.tStart < s'.tEnd ∧
    ∃ s ∈ segments, s'.tStart = max s.tStart winFrom ∧
      s'.tEnd = min s.tEnd winTo := by
  unfold clipToWindow at h
  by_cases hw : winTo ≤ winFrom
  · rw [if_pos hw] at h
    exact absurd h (List.not_mem_nil s')
  · rw [if_neg hw] at h
    rcases List.mem_filterMap.mp h with ⟨s, hs, hg⟩
    by_cases hlt : max s.tStart winFrom < min s.tEnd winTo
    · simp only [if_pos hlt] at hg
      rcases Option.some.inj hg with rfl
      exact ⟨hlt, s, hs, rfl, rfl⟩
    · simp only [if_neg hlt] at hg
      exact absurd hg (by simp)

theorem clipToWindow_pairwise (segments : List Segment) (winFrom winTo : Int)
    (hpw : List.Pairwise (fun a b : Segment => a.tEnd ≤ b.tStart) segments) :
    List.Pairwise (fun a b : Segment => a.tEnd ≤ b.tStart)
      (clipToWindow segments winFrom winTo) := by
  unfold clipToWindow
  by_cases hw : winTo ≤ winFrom
  · rw [if_pos hw]
    exact List.Pairwise.nil
  · rw [if_neg hw]
    refine List.pairwise_filterMap.mpr (hpw.imp ?_)
    intro a b hab x hx y hy
    by_cases ha : max a.tStart winFrom < min a.tEnd winTo
    · simp only [if_pos ha] at hx
      by_cases hb : max b.tStart winFrom < min b.tEnd winTo
      · simp only [if_pos hb] at hy
        cases Option.some.inj (Option.mem_def.mp hx)
        cases Option.some.inj (Option.mem_def.mp hy)
        exact le_trans (min_le_left _ _) (le_trans hab (le_max_left _ _))
      · simp only [if_neg hb] at hy
        exact absurd (Option.mem_def.mp hy) (by simp)
    · simp only [if_neg ha] at hx
      exact absurd (Option.mem_def.mp hx) (by simp)

/-- **C5 (amended)**.  For any update list, state mapping and optional
window, the segments returned by `buildSegments` satisfy `tStart ≤ tEnd` and
form an ordered, non-overlapping sequence; when a clipping window is
supplied every returned segment additionally satisfies the strict
`tStart < tEnd`.  (Without a window the final segment can be
zero-duration — see the counterexample — so the strict inequality of the
original claim holds only in the windowed case.) -/
theorem buildSegments_wf (parse : String → Option Int)
    (updates : List WorkItemUpdate) (mapping : StateMapping)
    (window : Option (Int × Int)) :
    (∀ s ∈ buildSegments parse updates mapping window, s.tStart ≤ s.tEnd) ∧
    List.Pairwise (fun a b : Segment => a.tEnd ≤ b.tStart)
      (buildSegments parse updates mapping window) ∧
    (window.isSome = true →
      ∀ s ∈ buildSegments parse updates mapping window, s.tStart < s.tEnd) := by
  have hsorted := groupEvents_sorted _ (normalizeAndSort_sorted parse updates)
  unfold buildSegments
  cases hev : groupEvents (normalizeAndSort parse updates) with
  | nil =>
    simp only [List.isEmpty_nil, if_pos rfl]
    refine ⟨?_, List.Pairwise.nil, ?_⟩
    · intro s hs; exact absurd hs (List.not_mem_nil s)
    · intro _ s hs; exact absurd hs (List.not_mem_nil s)
  | cons e0 rest =>
    rw [hev] at hsorted
    rcases List.pairwise_cons.mp hsorted with ⟨_, _⟩
    have hdates : List.Pairwise (fun a b : Int => a ≤ b)
        (e0.date :: rest.map NormalizedUpdate.date) :=
      (List.pairwise_map).mpr (hsorted.imp (fun h => le_of_lt h))
    have hprops := segLoop_props mapping rest e0.stateRaw e0.assignee e0.date
      (normalizeState e0.stateRaw mapping) e0.assignee e0.date (le_refl _) hdates
    rcases hprops with ⟨_, hbounds, hpw, _⟩
    have hbase : buildBaseSegments (e0 :: rest) mapping =
        segLoop mapping e0.stateRaw e0.assignee e0.date
          (normalizeState e0.stateRaw mapping) e0.assignee e0.date rest := rfl
    simp only [List.isEmpty_cons, if_neg (by simp : ¬ (false = true)), hbase]
    cases window with
    | none =>
      refine ⟨?_, hpw, ?_⟩
      · intro s hs
        exact (hbounds s hs).2.1
      · intro hcontra
        exact absurd hcontra (by simp)
    | some w =>
      obtain ⟨f, t⟩ := w
      refine ⟨?_, ?_, ?_⟩
      · intro s hs
        exact (clipToWindow_mem _ f t s hs).1.le
      · exact clipToWindow_pairwise _ f t hpw
      · intro _ s hs
        exact (clipToWindow_mem _ f t s hs).1

/-- **C5 (counterexample)**.  A single valid event (state never specified)
produces, without a clipping window, exactly one segment whose `tStart` and
`tEnd` are both the event's timestamp — violating the claimed strict
`tStart < tEnd`. -/
theorem buildSegments_zero_duration_counterexample :
    buildSegments (fun s => if s = "2024-01-01T00:00:00Z" then some 100 else none)
        [⟨some "2024-01-01T00:00:00Z", none, none⟩]
        ⟨"To Do", "Doing", "Done"⟩ none =
      [⟨"unknown", none, 100, 100⟩] ∧
    ∃ s ∈ buildSegments
        (fun s => if s = "2024-01-01T00:00:00Z" then some 100 else none)
        [⟨some "2024-01-01T00:00:00Z", none, none⟩]
        ⟨"To Do", "Doing", "Done"⟩ none, ¬ s.tStart < s.tEnd := by
  refine ⟨by decide, ⟨"unknown", none, 100, 100⟩, by decide, by decide⟩

/-- Closed witness for `buildSegments_wf`: two events and the window
`[3, 7]`; the clipped segment satisfies the strict inequality and the
windowless run of the same updates satisfies `tStart ≤ tEnd` throughout. -/
theorem buildSegments_wf_witness :
    (∀ s ∈ buildSegments (fun s => if s = "d0" then some 0 else
        if s = "d1" then some 10 else none)
        [⟨some "d0", some (.str "A"), none⟩, ⟨some "d1", some (.str "B"), none⟩]
        ⟨"To Do", "Doing", "Done"⟩ (some (3, 7)), s.tStart < s.tEnd) ∧
    (∀ s ∈ buildSegments (fun s => if s = "d0" then some 0 else
        if s = "d1" then some 10 else none)
        [⟨some "d0", some (.str "A"), none⟩, ⟨some "d1", some (.str "B"), none⟩]
        ⟨"To Do", "Doing", "Done"⟩ none, s.tStart ≤ s.tEnd) := by
  have h1 := buildSegments_wf (fun s => if s = "d0" then some 0 else
      if s = "d1" then some 10 else none)
    [⟨some "d0", some (.str "A"), none⟩, ⟨some "d1", some (.str "B"), none⟩]
    ⟨"To Do", "Doing", "Done"⟩ (some (3, 7))
  have h2 := buildSegments_wf (fun s => if s = "d0" then some 0 else
      if s = "d1" then some 10 else none)
    [⟨some "d0", some (.str "A"), none⟩, ⟨some "d1", some (.str "B"), none⟩]
    ⟨"To Do", "Doing", "Done"⟩ none
  exact ⟨h1.2.2 rfl, h2.1⟩

/-! ## Work-item flow metrics (`computeWorkItemMetrics`,
`~/models/workitem-metrics`)

`timeInStateMs` is flattened into the three fields `toDoMs` / `inProgressMs` /
`doneMs`; the unused `_mapping` parameter is dropped. -/

/-- Result record of `computeWorkItemMetrics`. -/
structure WorkItemMetrics where
  completed : Bool
  firstDoneAt : Option Int
  throughput : Nat
  leadTimeMs : Option Int
  cycleTimeMs : Option Int
  toDoMs : Int
  inProgressMs : Int
  doneMs : Int
  reworkCount : Nat
  deriving DecidableEq, Repr

/-- Accumulators of the single `for` loop of `computeWorkItemMetrics`. -/
structure WIAcc where
  toDoMs : Int
  inProgressMs : Int
  doneMs : Int
  firstDoneAt : Option Int
  firstInProgressAt : Option Int
  hasTrans : Bool
  deriving DecidableEq, Repr

/-- `i > 0 && segments[i-1].state !== "done"` for the previous segment. -/
def prevNonDone : Option Segment → Bool
  | some p => decide (p.state ≠ "done")
  | none => false

/-- One iteration of the loop (`prev` is `segments[i-1]` when `i > 0`). -/
def wimStep (prev : Option Segment) (acc : WIAcc) (s : Segment) : WIAcc :=
  let dur := max 0 (s.tEnd - s.tStart)
  if s.state = "toDo" then { acc with toDoMs := acc.toDoMs + dur }
  else if s.state = "inProgress" then
    { acc with
      inProgressMs := acc.inProgressMs + dur,
      firstInProgressAt := match acc.firstInProgressAt with
        | some t => some t
        | none => some s.tStart }
  else if s.state = "done" then
    { acc with
      doneMs := acc.doneMs + dur,
      firstDoneAt := match acc.firstDoneAt with
        | some t => some t
        | none => some s.tStart,
      hasTrans := acc.hasTrans || prevNonDone prev }
  else acc

/-- The loop itself. -/
def wimFold (acc : WIAcc) (prev : Option Segment) : List Segment → WIAcc
  | [] => acc
  | s :: rest => wimFold (wimStep prev acc s) (some s) rest

/-- The rework loop: transitions from `done` to any non-done state. -/
def reworkCount : List Segment → Nat
  | a :: b :: rest =>
    (if a.state = "done" ∧ b.state ≠ "done" then 1 else 0) + reworkCount (b :: rest)
  | _ => 0

/-- `computeWorkItemMetrics(segments, createdAt)`. -/
def computeWorkItemMetrics (segments : List Segment) (createdAt : Int) :
    WorkItemMetrics :=
  if segments.isEmpty then ⟨false, none, 0, none, none, 0, 0, 0, 0⟩
  else
    let acc := wimFold ⟨0, 0, 0, none, none, false⟩ none segments
    let completed := match segments.getLast? with
      | some s => decide (s.state = "done")
      | none => false
    let throughput := if acc.hasTrans then 1 else 0
    let leadTimeMs := match acc.firstDoneAt with
      | some t => some (max 0 (t - createdAt))
      | none => none
    let cycleTimeMs := match acc.firstDoneAt, acc.firstInProgressAt with
      | some d, some p => if p ≤ d then some (max 0 (d - p)) else none
      | _, _ => none
    ⟨completed, acc.firstDoneAt, throughput, leadTimeMs, cycleTimeMs,
      acc.toDoMs, acc.inProgressMs, acc.doneMs, reworkCount segments⟩

/-- **C6**.  The concrete example `toDo[0,10) → inProgress[10,20) →
done[20,30)` with creation at `t = 0` yields `leadTimeMs = 20`,
`cycleTimeMs = 10`, `throughput = 1`, `completed = true`, `reworkCount = 0`
(and `timeInStateMs` of 10 each). -/
theorem computeWorkItemMetrics_example :
    computeWorkItemMetrics
        [⟨"toDo", none, 0, 10⟩, ⟨"inProgress", none, 10, 20⟩,
          ⟨"done", none, 20, 30⟩] 0 =
      ⟨true, some 20, 1, some 20, some 10, 10, 10, 10, 0⟩ := by
  decide

/-- The running value of the `hasTrans` flag over the remaining segments. -/
def transFlag (prev : Option Segment) : List Segment → Bool
  | [] => false
  | s :: rest =>
    ((if s.state = "done" then prevNonDone prev else false) : Bool) ||
      transFlag (some s) rest

theorem wimStep_hasTrans (prev : Option Segment) (acc : WIAcc) (s : Segment) :
    (wimStep prev acc s).hasTrans =
      (acc.hasTrans || (if s.state = "done" then prevNonDone prev else false)) := by
  unfold wimStep
  by_cases h1 : s.state = "toDo"
  · have : ¬ s.state = "done" := by rw [h1]; decide
    simp [h1, this]
  · by_cases h2 : s.state = "inProgress"
    · have : ¬ s.state = "done" := by rw [h2]; decide
      simp [h1, h2, this]
    · by_cases h3 : s.state = "done"
      · simp [h1, h2, h3]
      · simp [h1, h2, h3]

theorem wimFold_hasTrans :
    ∀ (l : List Segment) (prev : Option Segment) (acc : WIAcc),
      (wimFold acc prev l).hasTrans = (acc.hasTrans || transFlag prev l) := by
  intro l
  induction l with
  | nil => intro prev acc; simp [wimFold, transFlag]
  | cons s rest ih =>
    intro prev acc
    simp only [wimFold, transFlag]
    rw [ih (some s) (wimStep prev acc s), wimStep_hasTrans, Bool.or_assoc]

theorem cons_split_iff (P : Segment → Segment → Prop) (s : Segment)
    (rest : List Segment) :
    (∃ l1 a b l2, s :: rest = l1 ++ a :: b :: l2 ∧ P a b) ↔
      ((∃ b l2, rest = b :: l2 ∧ P s b) ∨
        (∃ l1 a b l2, rest = l1 ++ a :: b :: l2 ∧ P a b)) := by
  constructor
  · rintro ⟨l1, a, b, l2, heq, hp⟩
    cases l1 with
    | nil =>
      rcases List.cons.injEq .. ▸ heq with ⟨rfl, rfl⟩
      exact Or.inl ⟨b, l2, rfl, hp⟩
    | cons c l1' =>
      rcases List.cons.injEq .. ▸ heq with ⟨rfl, h2⟩
      exact Or.inr ⟨l1', a, b, l2, h2, hp⟩
  · rintro (⟨b, l2, rfl, hp⟩ | ⟨l1, a, b, l2, rfl, hp⟩)
    · exact ⟨[], s, b, l2, rfl, hp⟩
    · exact ⟨s :: l1, a, b, l2, rfl, hp⟩

theorem transFlag_iff :
    ∀ (l : List Segment) (prev : Option Segment),
      transFlag prev l = true ↔
        ((∃ p, prev = some p ∧ p.state ≠ "done" ∧
            ∃ b l2, l = b :: l2 ∧ b.state = "done") ∨
          (∃ l1 a b l2, l = l1 ++ a :: b :: l2 ∧ b.state = "done" ∧
            a.state ≠ "done")) := by
  intro l
  induction l with
  | nil =>
    intro prev
    simp only [transFlag]
    constructor
    · intro h; exact absurd h (by simp)
    · rintro (⟨p, _, _, b, l2, heq, _⟩ | ⟨l1, a, b, l2, heq, _⟩)
      · exact absurd heq (by simp)
      · exact absurd heq (by simp)
  | cons s rest ih =>
    intro prev
    simp only [transFlag, Bool.or_eq_true]
    rw [ih (some s)]
    rw [cons_split_iff (fun a b => b.state = "done" ∧ a.state ≠ "done") s rest]
    constructor
    · rintro (hfirst | (⟨p, hp, hpnd, b, l2, rfl, hb⟩ | hsplit))
      · by_cases hs : s.state = "done"
        · rw [if_pos hs] at hfirst
          cases prev with
          | none => exact absurd hfirst (by simp [prevNonDone])
          | some p =>
            refine Or.inl ⟨p, rfl, ?_, s, rest, rfl, hs⟩
            have := of_decide_eq_true hfirst
            exact this
        · rw [if_neg hs] at hfirst
          exact absurd hfirst (by simp)
      · rcases Option.some.inj hp with rfl
        exact Or.inr (Or.inl ⟨b, l2, rfl, hb, hpnd⟩)
      · exact Or.inr (Or.inr hsplit)
    · rintro (⟨p, rfl, hpnd, b, l2, heq, hb⟩ | (⟨b, l2, rfl, hb, hs⟩ | hsplit))
      · rcases List.cons.injEq .. ▸ heq with ⟨rfl, rfl⟩
        refine Or.inl ?_
        rw [if_pos hb]
        exact decide_eq_true hpnd
      · exact Or.inr (Or.inl ⟨s, rfl, hs, b, l2, rfl, hb⟩)
      · exact Or.inr (Or.inr hsplit)

theorem transFlag_all_done :
    ∀ (l : List Segment) (prev : Option Segment),
      (∀ s ∈ l, s.state = "done") → prevNonDone prev = false →
      transFlag prev l = false := by
  intro l
  induction l with
  | nil => intro prev _ _; rfl
  | cons s rest ih =>
    intro prev hall hprev
    have hs : s.state = "done" := hall s (by simp)
    have hnext : prevNonDone (some s) = false := by
      simp [prevNonDone, hs]
    simp only [transFlag, hprev, hs, if_pos, Bool.or_eq_false_iff]
    exact ⟨by simp [hprev], ih (some s) (fun x hx => hall x (by simp [hx])) hnext⟩

/-- **C7**.  `computeWorkItemMetrics` returns `throughput = 1` iff some
segment with normalized state `done` is immediately preceded by a segment
with a non-done state; in particular, for a non-empty timeline consisting
only of `done` segments (item completed before the window start),
`throughput` is `0` even though `completed` is `true`. -/
theorem computeWorkItemMetrics_throughput (segments : List Segment)
    (createdAt : Int) :
    ((computeWorkItemMetrics segments createdAt).throughput = 1 ↔
      ∃ l1 a b l2, segments = l1 ++ a :: b :: l2 ∧ b.state = "done" ∧
        a.state ≠ "done") ∧
    (segments ≠ [] → (∀ s ∈ segments, s.state = "done") →
      (computeWorkItemMetrics segments createdAt).throughput = 0 ∧
      (computeWorkItemMetrics segments createdAt).completed = true) := by
  constructor
  · cases hseg : segments with
    | nil =>
      constructor
      · intro h
        rw [computeWorkItemMetrics] at h
        simp at h
      · rintro ⟨l1, a, b, l2, heq, _⟩
        exact absurd heq (by simp)
    | cons s rest =>
      have hne : ¬ (s :: rest : List Segment).isEmpty = true := by simp
      constructor
      · intro h
        rw [computeWorkItemMetrics, if_neg hne] at h
        simp only at h
        have hflag : (wimFold ⟨0, 0, 0, none, none, false⟩ none
            (s :: rest)).hasTrans = true := by
          by_cases hb : (wimFold ⟨0, 0, 0, none, none, false⟩ none
              (s :: rest)).hasTrans = true
          · exact hb
          · rw [if_neg hb] at h
            exact absurd h (by decide)
        rw [wimFold_hasTrans] at hflag
        simp only [Bool.false_or] at hflag
        rcases (transFlag_iff (s :: rest) none).mp hflag with
          ⟨p, hp, _⟩ | hsplit
        · exact absurd hp (by simp)
        · exact hsplit
      · intro hsplit
        rw [computeWorkItemMetrics, if_neg hne]
        simp only
        have hflag : transFlag none (s :: rest) = true :=
          (transFlag_iff (s :: rest) none).mpr (Or.inr hsplit)
        rw [if_pos (by rw [wimFold_hasTrans]; simp [hflag])]
  · intro hne hall
    have hflag : transFlag none segments = false :=
      transFlag_all_done segments none hall rfl
    have hisne : ¬ segments.isEmpty = true := by
      cases segments with
      | nil => exact absurd rfl hne
      | cons s rest => simp
    rw [computeWorkItemMetrics, if_neg hisne]
    simp only
    constructor
    · rw [if_neg (by rw [wimFold_hasTrans]; simp [hflag])]
    · have hlast : ∃ s, segments.getLast? = some s ∧ s ∈ segments := by
        cases segments with
        | nil => exact absurd rfl hne
        | cons a t =>
          exact ⟨(a :: t).getLast (by simp),
            List.getLast?_eq_getLast _ (by simp), List.getLast_mem _⟩
      rcases hlast with ⟨slast, hsl, hmem⟩
      rw [hsl]
      exact decide_eq_true (hall slast hmem)

/-- Closed witness for `computeWorkItemMetrics_throughput`: the example
timeline has an in-window transition into `done` (`throughput = 1`), while a
timeline clipped to only `done` segments has `throughput = 0` with
`completed = true`. -/
theorem computeWorkItemMetrics_throughput_witness :
    (computeWorkItemMetrics
        [⟨"toDo", none, 0, 10⟩, ⟨"done", none, 10, 20⟩] 0).throughput = 1 ∧
    (computeWorkItemMetrics [⟨"done", none, 0, 10⟩, ⟨"done", none, 10, 20⟩]
        0).throughput = 0 ∧
    (computeWorkItemMetrics [⟨"done", none, 0, 10⟩, ⟨"done", none, 10, 20⟩]
        0).completed = true := by
  have h1 := (computeWorkItemMetrics_throughput
    [⟨"toDo", none, 0, 10⟩, ⟨"done", none, 10, 20⟩] 0).1.mpr
    ⟨[], ⟨"toDo", none, 0, 10⟩, ⟨"done", none, 10, 20⟩, [], rfl, rfl,
      by decide⟩
  have h2 := (computeWorkItemMetrics_throughput
    [⟨"done", none, 0, 10⟩, ⟨"done", none, 10, 20⟩] 0).2 (by simp)
    (by
      intro s hs
      rcases List.mem_cons.mp hs with rfl | hs
      · rfl
      · rcases List.mem_singleton.mp hs with rfl
        rfl)
  exact ⟨h1, h2.1, h2.2⟩

/-! ## Paged work-item updates (`AdoClient.listWorkItemUpdatesPaged`,
`src/app/services/ado.server.ts` / `src/unnamed/part_006`)

The network is modelled by the list of page responses the remote returns in
order; each response carries its (already validated) updates and the raw
`continuationToken` field.  The final sort's comparator is
`(a.revisedDate ? Date.parse(a.revisedDate) : 0) - (…b…)`; `Date.parse` of an
unparseable string is `NaN` (`updateSortKey … = none`), and the ECMA-262
SortCompare operation coerces a `NaN` comparator result to `+0`, i.e. the
two elements compare as equal and the stable sort keeps their order. -/

/-- One page response of the updates endpoint. -/
structure PageResp where
  items : List WorkItemUpdate
  continuationToken : Option String
  deriving DecidableEq, Repr

/-- The `do … while (continuationToken)` pagination loop with its safety
counter (`throw` after more than 200 pages).  A missing next response models
a failing fetch. -/
def runPages : List PageResp → Nat → Except String (List WorkItemUpdate)
  | [], _ => .error "fetch failed"
  | p :: rest, safety =>
    let s := safety + 1
    if 200 < s then .error "WorkItem updates paging exceeded safety limit"
    else
      match p.continuationToken with
      | none => .ok p.items
      | some t =>
        if t = "" then .ok p.items
        else
          match runPages rest s with
          | .ok tail => .ok (p.items ++ tail)
          | .error e => .error e

/-- `a.revisedDate ? Date.parse(a.revisedDate) : 0`: `none` models `NaN`. -/
def updateSortKey (parse : String → Option Int) (u : WorkItemUpdate) :
    Option Int :=
  match u.revisedDate with
  | none => some 0
  | some s => if s = "" then some 0 else parse s

/-- The sort's "don't swap" relation under SortCompare's NaN-to-`+0`
coercion. -/
def updatesLe (parse : String → Option Int) (a b : WorkItemUpdate) : Bool :=
  match updateSortKey parse a, updateSortKey parse b with
  | some x, some y => decide (x ≤ y)
  | _, _ => true

/-- `listWorkItemUpdatesPaged`: concatenate the pages, then sort. -/
def listWorkItemUpdatesPaged (parse : String → Option Int)
    (responses : List PageResp) : Except String (List WorkItemUpdate) :=
  match runPages responses 0 with
  | .ok all => .ok (stableSort (updatesLe parse) all)
  | .error e => .error e

/-- **C8 (amended)**.  When pagination succeeds and every fetched update's
`revisedDate` is missing, empty, or parseable (no `NaN` key),
`listWorkItemUpdatesPaged` returns a permutation of the concatenated pages
that is sorted ascending by the parsed `revisedDate`, where a missing or
empty `revisedDate` keys as epoch 0.  (An update with a non-empty but
unparseable `revisedDate` has a `NaN` comparator value, compares as equal to
everything, and therefore keeps its relative position instead of sorting
first — see the counterexample.) -/
theorem listWorkItemUpdatesPaged_sorted (parse : String → Option Int)
    (responses : List PageResp) (all : List WorkItemUpdate)
    (hrun : runPages responses 0 = .ok all)
    (hkeys : ∀ u ∈ all, (updateSortKey parse u).isSome = true) :
    ∃ sorted, listWorkItemUpdatesPaged parse responses = .ok sorted ∧
      List.Perm sorted all ∧
      List.Pairwise (fun a b : WorkItemUpdate => ∀ x y,
        updateSortKey parse a = some x → updateSortKey parse b = some y →
        x ≤ y) sorted ∧
      (∀ u ∈ sorted, (u.revisedDate = none ∨ u.revisedDate = some "") →
        updateSortKey parse u = some 0) := by
  refine ⟨stableSort (updatesLe parse) all, ?_, ?_, ?_, ?_⟩
  · unfold listWorkItemUpdatesPaged
    rw [hrun]
  · exact stableSort_perm _ all
  · have hpw := stableSort_pairwise (updatesLe parse) all
      (by
        intro x hx y hy
        rcases Option.isSome_iff_exists.mp (hkeys x hx) with ⟨kx, hkx⟩
        rcases Option.isSome_iff_exists.mp (hkeys y hy) with ⟨ky, hky⟩
        unfold updatesLe
        rw [hkx, hky]
        rcases le_total kx ky with h | h
        · exact Or.inl (by simp [h])
        · exact Or.inr (by simp [h]))
      (by
        intro x hx y hy z hz h1 h2
        rcases Option.isSome_iff_exists.mp (hkeys x hx) with ⟨kx, hkx⟩
        rcases Option.isSome_iff_exists.mp (hkeys y hy) with ⟨ky, hky⟩
        rcases Option.isSome_iff_exists.mp (hkeys z hz) with ⟨kz, hkz⟩
        unfold updatesLe at h1 h2 ⊢
        rw [hkx, hky] at h1
        rw [hky, hkz] at h2
        rw [hkx, hkz]
        exact decide_eq_true ((of_decide_eq_true h1).trans (of_decide_eq_true h2)))
    refine hpw.imp ?_
    intro a b hab x y hx hy
    unfold updatesLe at hab
    rw [hx, hy] at hab
    exact of_decide_eq_true hab
  · intro u _ hu
    rcases hu with hu | hu <;> simp [updateSortKey, hu]

/-- Closed witness for `listWorkItemUpdatesPaged_sorted`: one page holding an
update dated 9, one with a missing `revisedDate` (epoch 0): the result is the
permutation sorted with the missing-date update first. -/
theorem listWorkItemUpdatesPaged_sorted_witness :
    ∃ sorted,
      listWorkItemUpdatesPaged (fun s => if s = "9" then some 9 else none)
          [⟨[⟨some "9", none, none⟩, ⟨none, none, none⟩], none⟩] =
        .ok sorted ∧
      List.Perm sorted [⟨some "9", none, none⟩, ⟨none, none, none⟩] ∧
      List.Pairwise (fun a b : WorkItemUpdate => ∀ x y,
        updateSortKey (fun s => if s = "9" then some 9 else none) a = some x →
        updateSortKey (fun s => if s = "9" then some 9 else none) b = some y →
        x ≤ y) sorted ∧
      (∀ u ∈ sorted, (u.revisedDate = none ∨ u.revisedDate = some "") →
        updateSortKey (fun s => if s = "9" then some 9 else none) u =
          some 0) :=
  listWorkItemUpdatesPaged_sorted (fun s => if s = "9" then some 9 else none)
    [⟨[⟨some "9", none, none⟩, ⟨none, none, none⟩], none⟩]
    [⟨some "9", none, none⟩, ⟨none, none, none⟩] rfl
    (by decide)

/-- **C8 (counterexample)**.  A single page `[u1, u2]` where `u1` has the
parseable date `"5"` and `u2` the non-empty unparseable date `"x"`: the
claim says `u2` sorts as epoch 0, i.e. before `u1`, but the comparator value
`5 - NaN` is `NaN`, SortCompare coerces it to `+0`, and the stable sort
leaves the pair untouched: the code returns `[u1, u2]`, not `[u2, u1]`. -/
theorem listWorkItemUpdatesPaged_nan_counterexample :
    listWorkItemUpdatesPaged (fun s => if s = "5" then some 5 else none)
        [⟨[⟨some "5", none, none⟩, ⟨some "x", none, none⟩], none⟩] =
      .ok [⟨some "5", none, none⟩, ⟨some "x", none, none⟩] ∧
    updateSortKey (fun s => if s = "5" then some 5 else none)
        ⟨some "x", none, none⟩ = none ∧
    ¬ (listWorkItemUpdatesPaged (fun s => if s = "5" then some 5 else none)
        [⟨[⟨some "5", none, none⟩, ⟨some "x", none, none⟩], none⟩] =
      .ok [⟨some "x", none, none⟩, ⟨some "5", none, none⟩]) := by
  refine ⟨rfl, by decide, ?_⟩
  intro h
  exact absurd (Except.ok.inj h) (by decide)

/-! ## Business-time calculator (`businessDuration`,
`src/app/services/ado.server.ts`)

UTC calendar arithmetic on millisecond timestamps is exact integer
arithmetic: `utcMidnight t = (t / 86400000) * 86400000` (Euclidean division
is floor for the positive divisor), ECMA-262 defines
`getUTCDay t = (Day(t) + 4) mod 7` with a non-negative `mod`, and
`Date.UTC(y, m, d, h, min)` on a midnight cursor is
`midnight + h*3600000 + min*60000`. -/

/-- `parseHm`: the regex `^(\d{2}):(\d{2})$` on the trimmed string plus the
`0–23` / `0–59` range checks. -/
def parseHm (v : String) : Option (Nat × Nat) :=
  match (jsTrim v).toList with
  | [h1, h2, c, m1, m2] =>
    if c = ':' ∧ h1.isDigit ∧ h2.isDigit ∧ m1.isDigit ∧ m2.isDigit then
      let h := (h1.toNat - 48) * 10 + (h2.toNat - 48)
      let m := (m1.toNat - 48) * 10 + (m2.toNat - 48)
      if h ≤ 23 ∧ m ≤ 59 then some (h, m) else none
    else none
  | _ => none

/-- `Schedule` (fixed UTC interpretation); `days` follow JS `getUTCDay`
numbering, 0 = Sunday … 6 = Saturday. -/
structure Schedule where
  startHm : String
  endHm : String
  days : List Int
  deriving DecidableEq, Repr

/-- `overlapMs`. -/
def overlapMs (aStart aEnd bStart bEnd : Int) : Int :=
  max 0 (min aEnd bEnd - max aStart bStart)

/-- The per-day `while` loop of `businessDuration`: `d` is the cursor day
number (UTC days since the epoch), `n` the remaining days (inclusive). -/
def businessDayLoop (tStart tEnd : Int) (sh sm eh em : Nat) (days : List Int) :
    Int → Nat → Int
  | _, 0 => 0
  | d, n + 1 =>
    let dow := (d + 4) % 7
    let acc :=
      if days.contains dow then
        let winStart := d * 86400000 + (sh : Int) * 3600000 + (sm : Int) * 60000
        let winEnd := d * 86400000 + (eh : Int) * 3600000 + (em : Int) * 60000
        let overlap := overlapMs tStart tEnd winStart winEnd
        if 0 < overlap then overlap else 0
      else 0
    acc + businessDayLoop tStart tEnd sh sm eh em days (d + 1) n

/-- `businessDuration(start, end, schedule)`. -/
def businessDuration (start stop : Int) (schedule : Schedule) : Int :=
  if stop ≤ start then 0
  else
    match parseHm schedule.startHm, parseHm schedule.endHm with
    | some (sh, sm), some (eh, em) =>
      let d0 := start / 86400000
      let d1 := stop / 86400000
      businessDayLoop start stop sh sm eh em schedule.days d0 (d1 - d0 + 1).toNat
    | _, _ => 0

/-- The Mon–Fri 09:00–17:00 UTC schedule of the claim. -/
def mondayFriday : Schedule := ⟨"09:00", "17:00", [1, 2, 3, 4, 5]⟩

/-- **C10**.  For the Mon–Fri 09:00–17:00 UTC schedule, the interval from any
Friday 16:00 UTC (`d` is the UTC day number of a Friday) to the following
Monday 10:00 UTC yields exactly 1 h (Friday 16:00–17:00) + 1 h (Monday
09:00–10:00) = 7 200 000 ms; the weekend contributes nothing. -/
theorem businessDuration_weekend_example (d : Int) (hfri : (d + 4) % 7 = 5) :
    businessDuration (d * 86400000 + 57600000) ((d + 3) * 86400000 + 36000000)
      mondayFriday = 7200000 := by
  have hlt : ¬ ((d + 3) * 86400000 + 36000000 ≤ d * 86400000 + 57600000) := by
    omega
  have hsat : (d + 1 + 4) % 7 = 6 := by omega
  have hsun : (d + 1 + 1 + 4) % 7 = 0 := by omega
  have hmon : (d + 1 + 1 + 1 + 4) % 7 = 1 := by omega
  have hd0 : (d * 86400000 + 57600000) / 86400000 = d := by omega
  have hd1 : ((d + 3) * 86400000 + 36000000) / 86400000 = d + 3 := by omega
  unfold businessDuration
  rw [if_neg hlt]
  have hs : parseHm mondayFriday.startHm = some (9, 0) := by decide
  have he : parseHm mondayFriday.endHm = some (17, 0) := by decide
  rw [hs, he]
  simp only [hd0, hd1]
  have hn : (d + 3 - d + 1).toNat = 4 := by omega
  rw [hn]
  simp only [businessDayLoop, hfri, hsat, hsun, hmon]
  have c5 : mondayFriday.days.contains (5 : Int) = true := by decide
  have c6 : mondayFriday.days.contains (6 : Int) = false := by decide
  have c0 : mondayFriday.days.contains (0 : Int) = false := by decide
  have c1 : mondayFriday.days.contains (1 : Int) = true := by decide
  rw [c5, c6, c0, c1]
  simp only [if_true, if_false, Bool.false_eq_true, overlapMs]
  split_ifs <;> omega

/-- Closed witness for `businessDuration_weekend_example`:
day 19727 (2024-01-05) is a Friday. -/
theorem businessDuration_weekend_example_witness :
    businessDuration (19727 * 86400000 + 57600000)
      ((19727 + 3) * 86400000 + 36000000) mondayFriday = 7200000 :=
  businessDuration_weekend_example 19727 (by decide)

/-! ## PR-authored metrics (`computeAuthoredMetrics`,
`~/models/pr-authored-metrics`)

Date parsing (`parse`) and the ready-for-review regex test (`readyRe`) are
environment parameters; `businessTime` is the caller-supplied business-time
function.  JS float averages (`iterationsAvg`, `ciPassRate`) are represented
exactly as rationals; `Math.round(sum / n)` of integer sums is `roundDiv`. -/

/-- `IdentityRef` (the fields identity matching reads). -/
structure IdentityRef where
  id : Option String
  uniqueName : Option String
  mailAddress : Option String
  displayName : Option String
  deriving DecidableEq, Repr

/-- `PRComment`. -/
structure PRComment where
  author : Option IdentityRef
  content : Option String
  publishedDate : String
  deriving DecidableEq, Repr

/-- `PRThread`. -/
structure PRThread where
  comments : List PRComment
  deriving DecidableEq, Repr

/-- `PRReviewer`. -/
structure PRReviewer where
  id : String
  uniqueName : Option String
  displayName : String
  vote : Int
  deriving DecidableEq, Repr

/-- `PolicyEvaluation` (`typeDisplayName` is
`configuration.type.displayName`). -/
structure PolicyEvaluation where
  typeDisplayName : String
  status : String
  startedDate : Option String
  completedDate : Option String
  deriving DecidableEq, Repr

/-- `PRIteration`. -/
structure PRIteration where
  id : Int
  createdDate : String
  deriving DecidableEq, Repr

/-- `PullRequest`. -/
structure PullRequest where
  id : Nat
  createdBy : IdentityRef
  creationDate : String
  status : String
  isDraft : Option Bool
  closedDate : Option String
  deriving DecidableEq, Repr

/-- `identityKey`: `(uniqueName || mailAddress) || id || displayName`,
lower-cased, `undefined` when empty. -/
def identityKey (author : Option IdentityRef) : Option String :=
  match author with
  | none => none
  | some a =>
    let unique := match asString a.uniqueName with
      | some u => some u
      | none => asString a.mailAddress
    let raw := match unique with
      | some u => u
      | none =>
        match asString a.id with
        | some i => i
        | none =>
          match asString a.displayName with
          | some dn => dn
          | none => ""
    if raw = "" then none else some (jsLower raw)

/-- `safeBusinessTime`: clamp the business-time result to `≥ 0`
(`Number.isFinite(ms) && ms >= 0 ? ms : 0`; finiteness is vacuous on `Int`,
and the `catch` branch is unreachable for a total `bt`). -/
def safeBusinessTime (bt : Int → Int → Int) (a b : Int) : Int :=
  if 0 ≤ bt a b then bt a b else 0

/-- `isReviewerPolicy`. -/
def isReviewerPolicy (p : PolicyEvaluation) : Bool :=
  let name := jsLower p.typeDisplayName
  containsStr name "reviewer" || containsStr name "minimum number of reviewers" ||
    containsStr name "review"

/-- `isBuildPolicy`. -/
def isBuildPolicy (p : PolicyEvaluation) : Bool :=
  containsStr (jsLower p.typeDisplayName) "build"

/-- `detectReadyAt`: earliest comment whose (trimmed) text matches the
ready-for-review regex. -/
def detectReadyAt (readyRe : String → Bool) (parse : String → Option Int)
    (threads : List PRThread) : Option Int :=
  threads.foldl (fun acc t =>
    t.comments.foldl (fun acc c =>
      match asString c.content with
      | none => acc
      | some txt =>
        if readyRe txt then
          match parse c.publishedDate with
          | some d =>
            match acc with
            | none => some d
            | some r => if d < r then some d else some r
          | none => acc
        else acc) acc) none

/-- `findFirstNonAuthorCommentAtOrAfter`. -/
def findFirstNonAuthorCommentAtOrAfter (parse : String → Option Int)
    (threads : List PRThread) (authorKey : Option String) (notBefore : Int) :
    Option Int :=
  threads.foldl (fun first t =>
    t.comments.foldl (fun first c =>
      match parse c.publishedDate with
      | none => first
      | some wn =>
        if wn < notBefore then first
        else
          match identityKey c.author with
          | none => first
          | some whoKey =>
            if (match authorKey with
                | some ak => whoKey == ak
                | none => false : Bool) then first
            else
              match first with
              | none => some wn
              | some f => if wn < f then some wn else some f) first) none

/-- First truthy string of a JS `a || b || c || ""` chain. -/
def firstTruthy : List String → String
  | [] => ""
  | s :: rest => if s = "" then firstTruthy rest else s

/-- `reviewerKey`: `(uniqueName || displayName || id || "").toLowerCase()`,
`undefined` when empty (note: unlike `identityKey`, no trimming). -/
def reviewerKey (r : PRReviewer) : Option String :=
  let raw := firstTruthy [r.uniqueName.getD "", r.displayName, r.id]
  if raw = "" then none else some (jsLower raw)

/-- `findEarliestCommentByAuthorKey`. -/
def findEarliestCommentByAuthorKey (parse : String → Option Int)
    (threads : List PRThread) (key : String) : Option Int :=
  threads.foldl (fun first t =>
    t.comments.foldl (fun first c =>
      match identityKey c.author with
      | none => first
      | some whoKey =>
        if whoKey ≠ key then first
        else
          match parse c.publishedDate with
          | none => first
          | some wn =>
            match first with
            | none => some wn
            | some f => if wn < f then some wn else some f) first) none

/-- The `for (const r of approving)` loop of the vote fallback: each
approving reviewer must have a key and a traceable earliest comment, else
the whole inference aborts. -/
def earliestByReviewer (parse : String → Option Int) (threads : List PRThread) :
    List PRReviewer → Option (List Int)
  | [] => some []
  | r :: rs =>
    match reviewerKey r with
    | none => none
    | some k =>
      match findEarliestCommentByAuthorKey parse threads k with
      | none => none
      | some d =>
        match earliestByReviewer parse threads rs with
        | none => none
        | some tl => some (d :: tl)

/-- `inferApprovalsMetAtFromVotesAndComments`. -/
def inferApprovalsMetAtFromVotesAndComments (parse : String → Option Int)
    (reviewers : List PRReviewer) (threads : List PRThread) : Option Int :=
  if reviewers.isEmpty then none
  else
    let approving := reviewers.filter (fun r => decide (5 ≤ r.vote))
    if approving.isEmpty then none
    else if approving.length < reviewers.length then none
    else
      match earliestByReviewer parse threads approving with
      | none => none
      | some ds => reduceMax ds

/-- The per-PR reviewer-policy approval timestamps:
approved reviewer-category evaluations with `completedDate || startedDate`
parseable. -/
def reviewerApprovalDates (parse : String → Option Int)
    (policies : List PolicyEvaluation) : List Int :=
  (policies.filter (fun p => isReviewerPolicy p && eqAccent p.status "approved")).filterMap
    (fun p =>
      match toDate parse p.completedDate with
      | some d => some d
      | none => toDate parse p.startedDate)

/-- The per-PR approval moment: earliest approved reviewer-policy timestamp
when one exists, else the vote/comment fallback. -/
def prApprovalMetAt (parse : String → Option Int)
    (policies : List PolicyEvaluation) (reviewers : List PRReviewer)
    (threads : List PRThread) : Option Int :=
  let ds := reviewerApprovalDates parse policies
  if ds.isEmpty then inferApprovalsMetAtFromVotesAndComments parse reviewers threads
  else reduceMin ds

/-- `AuthoredContext`. -/
structure AuthoredCtx where
  threadsByPr : List (Nat × List PRThread)
  reviewersByPr : List (Nat × List PRReviewer)
  policiesByPr : List (Nat × List PolicyEvaluation)
  iterationsByPr : List (Nat × List PRIteration)
  businessTime : Int → Int → Int
  isDraftExcluded : Option (PullRequest → Bool)
  start : Option Int
  stop : Option Int

/-- `AuthoredMetrics`. -/
structure AuthoredMetrics where
  count : Nat
  ttfrAvgMs : Option Int
  timeToApproveAvgMs : Option Int
  timeToMergeAvgMs : Option Int
  iterationsAvg : Option Rat
  ciPassRate : Option Rat
  deriving DecidableEq, Repr

/-- The loop accumulators of `computeAuthoredMetrics`. -/
structure AuthAcc where
  ttfrSum : Int
  ttfrN : Nat
  approveSum : Int
  approveN : Nat
  mergeSum : Int
  mergeN : Nat
  iterSum : Nat
  iterN : Nat
  ciN : Nat
  ciPass : Nat
  deriving DecidableEq, Repr

/-- `ctx.xByPr.get(pr.id) ?? []`. -/
def lookupD {β : Type} (l : List (Nat × List β)) (k : Nat) : List β :=
  (lookupNat l k).getD []

/-- The included-PR filter: parseable creation date, inside `[start, end]`,
not draft-excluded. -/
def includedPRs (parse : String → Option Int) (ctx : AuthoredCtx)
    (prs : List PullRequest) : List PullRequest :=
  prs.filter (fun pr =>
    match parse pr.creationDate with
    | none => false
    | some created =>
      (match ctx.start with
        | some st => decide (st ≤ created)
        | none => true) &&
      (match ctx.stop with
        | some en => decide (created ≤ en)
        | none => true) &&
      !(match ctx.isDraftExcluded with
        | some f => f pr
        | none => pr.isDraft.getD false))

/-- The TTFR block of the loop. -/
def ttfrUpdate (parse : String → Option Int) (readyRe : String → Bool)
    (bt : Int → Int → Int) (threads : List PRThread) (pr : PullRequest)
    (created : Int) (acc : AuthAcc) : AuthAcc :=
  let readyAt : Option Int :=
    match detectReadyAt readyRe parse threads with
    | some r => some r
    | none => if pr.isDraft.getD false then none else some created
  let ttfrStart :=
    match readyAt with
    | some r => if created < r then r else created
    | none => created
  let authorKey := identityKey (some pr.createdBy)
  match findFirstNonAuthorCommentAtOrAfter parse threads authorKey ttfrStart with
  | some f =>
    if ttfrStart < f then
      { acc with
        ttfrSum := acc.ttfrSum + safeBusinessTime bt ttfrStart f,
        ttfrN := acc.ttfrN + 1 }
    else acc
  | none => acc

/-- The time-to-approval block of the loop. -/
def approvalUpdate (parse : String → Option Int) (bt : Int → Int → Int)
    (policies : List PolicyEvaluation) (reviewers : List PRReviewer)
    (threads : List PRThread) (created : Int) (acc : AuthAcc) : AuthAcc :=
  match prApprovalMetAt parse policies reviewers threads with
  | some metAt =>
    if created < metAt then
      { acc with
        approveSum := acc.approveSum + safeBusinessTime bt created metAt,
        approveN := acc.approveN + 1 }
    else acc
  | none => acc

/-- The time-to-merge block of the loop. -/
def mergeUpdate (parse : String → Option Int) (bt : Int → Int → Int)
    (pr : PullRequest) (created : Int) (acc : AuthAcc) : AuthAcc :=
  match toDate parse pr.closedDate with
  | some closed =>
    if eqAccent pr.status "completed" ∧ created < closed then
      { acc with
        mergeSum := acc.mergeSum + safeBusinessTime bt created closed,
        mergeN := acc.mergeN + 1 }
    else acc
  | none => acc

/-- The iterations block of the loop. -/
def iterUpdate (iters : Option (List PRIteration)) (acc : AuthAcc) : AuthAcc :=
  match iters with
  | some l => { acc with iterSum := acc.iterSum + l.length, iterN := acc.iterN + 1 }
  | none => acc

/-- One step of the CI block over a build policy evaluation. -/
def ciStep (parse : String → Option Int) (acc : AuthAcc)
    (p : PolicyEvaluation) : AuthAcc :=
  match toDate parse p.completedDate with
  | none => acc
  | some _ =>
    { acc with
      ciN := acc.ciN + 1,
      ciPass := if eqAccent p.status "approved" then acc.ciPass + 1 else acc.ciPass }

/-- The body of `for (const pr of included)`. -/
def processPR (parse : String → Option Int) (readyRe : String → Bool)
    (ctx : AuthoredCtx) (acc : AuthAcc) (pr : PullRequest) : AuthAcc :=
  match parse pr.creationDate with
  | none => acc
  | some created =>
    let threads := lookupD ctx.threadsByPr pr.id
    let policies := lookupD ctx.policiesByPr pr.id
    let reviewers := lookupD ctx.reviewersByPr pr.id
    let acc1 := ttfrUpdate parse readyRe ctx.businessTime threads pr created acc
    let acc2 := approvalUpdate parse ctx.businessTime policies reviewers threads
      created acc1
    let acc3 := mergeUpdate parse ctx.businessTime pr created acc2
    let acc4 := iterUpdate (lookupNat ctx.iterationsByPr pr.id) acc3
    (policies.filter isBuildPolicy).foldl (ciStep parse) acc4

/-- `computeAuthoredMetrics(prs, ctx)`. -/
def computeAuthoredMetrics (parse : String → Option Int)
    (readyRe : String → Bool) (prs : List PullRequest) (ctx : AuthoredCtx) :
    AuthoredMetrics :=
  let included := includedPRs parse ctx prs
  if included.isEmpty then ⟨0, none, none, none, none, none⟩
  else
    let acc := included.foldl (processPR parse readyRe ctx)
      ⟨0, 0, 0, 0, 0, 0, 0, 0, 0, 0⟩
    ⟨included.length,
      if acc.ttfrN ≠ 0 then some (roundDiv acc.ttfrSum acc.ttfrN) else none,
      if acc.approveN ≠ 0 then some (roundDiv acc.approveSum acc.approveN) else none,
      if acc.mergeN ≠ 0 then some (roundDiv acc.mergeSum acc.mergeN) else none,
      if acc.iterN ≠ 0 then some ((acc.iterSum : Rat) / (acc.iterN : Rat)) else none,
      if acc.ciN ≠ 0 then some ((acc.ciPass : Rat) / (acc.ciN : Rat)) else none⟩

theorem foldlMin_spec :
    ∀ (rest : List Int) (d : Int),
      (rest.foldl (fun m x => if x < m then x else m) d) ∈ d :: rest ∧
      (rest.foldl (fun m x => if x < m then x else m) d) ≤ d ∧
      ∀ x ∈ rest, (rest.foldl (fun m x => if x < m then x else m) d) ≤ x := by
  intro rest
  induction rest with
  | nil =>
    intro d
    exact ⟨by simp [List.foldl], le_refl d, by simp⟩
  | cons x rs ih =>
    intro d
    have hfd : (if x < d then x else d) ≤ d ∧ (if x < d then x else d) ≤ x ∧
        ((if x < d then x else d) = x ∨ (if x < d then x else d) = d) := by
      split_ifs with h
      · exact ⟨le_of_lt h, le_refl x, Or.inl rfl⟩
      · exact ⟨le_refl d, le_of_not_lt h, Or.inr rfl⟩
    rcases ih (if x < d then x else d) with ⟨hmem, hled, hall⟩
    refine ⟨?_, ?_, ?_⟩
    · show List.foldl (fun m x => if x < m then x else m) (if x < d then x else d) rs ∈
        d :: x :: rs
      rcases List.mem_cons.mp hmem with heq | hmem'
      · rcases hfd.2.2 with h | h
        · rw [heq, h]; simp
        · rw [heq, h]; simp
      · simp [hmem']
    · show List.foldl (fun m x => if x < m then x else m) (if x < d then x else d) rs ≤ d
      exact hled.trans hfd.1
    · intro y hy
      show List.foldl (fun m x => if x < m then x else m) (if x < d then x else d) rs ≤ y
      rcases List.mem_cons.mp hy with rfl | hy
      · exact hled.trans hfd.2.1
      · exact hall y hy

theorem reduceMin_spec (l : List Int) (m : Int) (h : reduceMin l = some m) :
    m ∈ l ∧ ∀ x ∈ l, m ≤ x := by
  cases l with
  | nil => exact absurd h (by simp [reduceMin])
  | cons d rest =>
    rcases Option.some.inj h with rfl
    rcases foldlMin_spec rest d with ⟨hmem, hled, hall⟩
    refine ⟨?_, ?_⟩
    · rcases List.mem_cons.mp hmem with heq | hmem'
      · simp [heq]
      · simp [hmem']
    · intro x hx
      rcases List.mem_cons.mp hx with rfl | hx
      · exact hled
      · exact hall x hx

theorem foldlMax_spec :
    ∀ (rest : List Int) (d : Int),
      (rest.foldl (fun m x => if m < x then x else m) d) ∈ d :: rest ∧
      d ≤ (rest.foldl (fun m x => if m < x then x else m) d) ∧
      ∀ x ∈ rest, x ≤ (rest.foldl (fun m x => if m < x then x else m) d) := by
  intro rest
  induction rest with
  | nil =>
    intro d
    exact ⟨by simp [List.foldl], le_refl d, by simp⟩
  | cons x rs ih =>
    intro d
    have hfd : d ≤ (if d < x then x else d) ∧ x ≤ (if d < x then x else d) ∧
        ((if d < x then x else d) = x ∨ (if d < x then x else d) = d) := by
      split_ifs with h
      · exact ⟨le_of_lt h, le_refl x, Or.inl rfl⟩
      · exact ⟨le_refl d, le_of_not_lt h, Or.inr rfl⟩
    rcases ih (if d < x then x else d) with ⟨hmem, hled, hall⟩
    refine ⟨?_, ?_, ?_⟩
    · show List.foldl (fun m x => if m < x then x else m) (if d < x then x else d) rs ∈
        d :: x :: rs
      rcases List.mem_cons.mp hmem with heq | hmem'
      · rcases hfd.2.2 with h | h
        · rw [heq, h]; simp
        · rw [heq, h]; simp
      · simp [hmem']
    · show d ≤ List.foldl (fun m x => if m < x then x else m) (if d < x then x else d) rs
      exact hfd.1.trans hled
    · intro y hy
      show y ≤ List.foldl (fun m x => if m < x then x else m) (if d < x then x else d) rs
      rcases List.mem_cons.mp hy with rfl | hy
      · exact hfd.2.1.trans hled
      · exact hall y hy

theorem reduceMax_spec (l : List Int) (m : Int) (h : reduceMax l = some m) :
    m ∈ l ∧ ∀ x ∈ l, x ≤ m := by
  cases l with
  | nil => exact absurd h (by simp [reduceMax])
  | cons d rest =>
    rcases Option.some.inj h with rfl
    rcases foldlMax_spec rest d with ⟨hmem, hled, hall⟩
    refine ⟨?_, ?_⟩
    · rcases List.mem_cons.mp hmem with heq | hmem'
      · simp [heq]
      · simp [hmem']
    · intro x hx
      rcases List.mem_cons.mp hx with rfl | hx
      · exact hled
      · exact hall x hx

theorem earliestByReviewer_spec (parse : String → Option Int)
    (threads : List PRThread) :
    ∀ (l : List PRReviewer) (ds : List Int),
      earliestByReviewer parse threads l = some ds →
      (∀ r ∈ l, ∃ k e, reviewerKey r = some k ∧
        findEarliestCommentByAuthorKey parse threads k = some e ∧ e ∈ ds) ∧
      (∀ e ∈ ds, ∃ r ∈ l, ∃ k, reviewerKey r = some k ∧
        findEarliestCommentByAuthorKey parse threads k = some e) := by
  intro l
  induction l with
  | nil =>
    intro ds h
    rcases Option.some.inj h with rfl
    exact ⟨by simp, by simp⟩
  | cons r rs ih =>
    intro ds h
    unfold earliestByReviewer at h
    split at h
    · cases h
    · rename_i k hk
      split at h
      · cases h
      · rename_i d he
        split at h
        · cases h
        · rename_i tl htl
          cases Option.some.inj h
          rcases ih tl htl with ⟨hfwd, hbwd⟩
          refine ⟨?_, ?_⟩
          · intro r' hr'
            rcases List.mem_cons.mp hr' with rfl | hr'
            · exact ⟨k, d, hk, he, by simp⟩
            · rcases hfwd r' hr' with ⟨k', e', h1, h2, h3⟩
              exact ⟨k', e', h1, h2, by simp [h3]⟩
          · intro e he'
            rcases List.mem_cons.mp he' with rfl | he'
            · exact ⟨r, by simp, k, hk, he⟩
            · rcases hbwd e he' with ⟨r', h1, k', h2, h3⟩
              exact ⟨r', by simp [h1], k', h2, h3⟩

theorem safeBusinessTime_nonneg (bt : Int → Int → Int) (a b : Int) :
    0 ≤ safeBusinessTime bt a b := by
  unfold safeBusinessTime
  split_ifs with h
  · exact h
  · exact le_refl 0

theorem roundDiv_one (a : Int) : roundDiv a 1 = a := by
  unfold roundDiv
  omega

theorem ttfrUpdate_approve (parse : String → Option Int) (readyRe : String → Bool)
    (bt : Int → Int → Int) (threads : List PRThread) (pr : PullRequest)
    (created : Int) (acc : AuthAcc) :
    (ttfrUpdate parse readyRe bt threads pr created acc).approveSum =
        acc.approveSum ∧
    (ttfrUpdate parse readyRe bt threads pr created acc).approveN =
        acc.approveN := by
  refine ⟨?_, ?_⟩ <;>
    (simp only [ttfrUpdate]
     split
     · split_ifs <;> rfl
     · rfl)

theorem mergeUpdate_approve (parse : String → Option Int) (bt : Int → Int → Int)
    (pr : PullRequest) (created : Int) (acc : AuthAcc) :
    (mergeUpdate parse bt pr created acc).approveSum = acc.approveSum ∧
    (mergeUpdate parse bt pr created acc).approveN = acc.approveN := by
  refine ⟨?_, ?_⟩ <;>
    (simp only [mergeUpdate]
     split
     · split_ifs <;> rfl
     · rfl)

theorem iterUpdate_approve (iters : Option (List PRIteration)) (acc : AuthAcc) :
    (iterUpdate iters acc).approveSum = acc.approveSum ∧
    (iterUpdate iters acc).approveN = acc.approveN := by
  refine ⟨?_, ?_⟩ <;> (simp only [iterUpdate]; split <;> rfl)

theorem ciFold_approve (parse : String → Option Int) :
    ∀ (ps : List PolicyEvaluation) (acc : AuthAcc),
      ((ps.foldl (ciStep parse) acc).approveSum = acc.approveSum ∧
        (ps.foldl (ciStep parse) acc).approveN = acc.approveN) := by
  intro ps
  induction ps with
  | nil => intro acc; exact ⟨rfl, rfl⟩
  | cons p rest ih =>
    intro acc
    have hstep : (ciStep parse acc p).approveSum = acc.approveSum ∧
        (ciStep parse acc p).approveN = acc.approveN := by
      refine ⟨?_, ?_⟩ <;> (simp only [ciStep]; split <;> rfl)
    simp only [List.foldl]
    rcases ih (ciStep parse acc p) with ⟨h1, h2⟩
    exact ⟨h1.trans hstep.1, h2.trans hstep.2⟩

/-- **C9 (amended)**.  In `computeAuthoredMetrics`, a PR's time-to-approval
runs from creation to the earliest timestamp at which a reviewer-category
policy evaluation reports approved status (minimum of the usable approved
timestamps); the vote-based fallback is applied exactly when NO approved
reviewer-policy evaluation with a usable timestamp exists — in particular,
but not only, when policy data is absent — and it yields a value only when
the reviewer list is non-empty, ALL reviewers have vote ≥ 5, and every
reviewer has a traceable earliest comment, the result being the latest of
those earliest comments.  The last conjunct ties the per-PR approval moment
`prApprovalMetAt` to the `timeToApproveAvgMs` field for a single included
PR. -/
theorem computeAuthoredMetrics_approval (parse : String → Option Int)
    (policies : List PolicyEvaluation) (reviewers : List PRReviewer)
    (threads : List PRThread) :
    (reviewerApprovalDates parse policies ≠ [] →
      ∃ m, prApprovalMetAt parse policies reviewers threads = some m ∧
        m ∈ reviewerApprovalDates parse policies ∧
        ∀ x ∈ reviewerApprovalDates parse policies, m ≤ x) ∧
    (reviewerApprovalDates parse policies = [] →
      prApprovalMetAt parse policies reviewers threads =
        inferApprovalsMetAtFromVotesAndComments parse reviewers threads) ∧
    (∀ d, inferApprovalsMetAtFromVotesAndComments parse reviewers threads =
        some d →
      reviewers ≠ [] ∧ (∀ r ∈ reviewers, 5 ≤ r.vote) ∧
      (∀ r ∈ reviewers, ∃ k e, reviewerKey r = some k ∧
        findEarliestCommentByAuthorKey parse threads k = some e ∧ e ≤ d) ∧
      (∃ r ∈ reviewers, ∃ k, reviewerKey r = some k ∧
        findEarliestCommentByAuthorKey parse threads k = some d)) ∧
    (∀ (readyRe : String → Bool) (pr : PullRequest) (ctx : AuthoredCtx)
        (created : Int),
      parse pr.creationDate = some created →
      ctx.start = none → ctx.stop = none →
      (match ctx.isDraftExcluded with
        | some f => f pr
        | none => pr.isDraft.getD false) = false →
      lookupD ctx.policiesByPr pr.id = policies →
      lookupD ctx.reviewersByPr pr.id = reviewers →
      lookupD ctx.threadsByPr pr.id = threads →
      (computeAuthoredMetrics parse readyRe [pr] ctx).timeToApproveAvgMs =
        (match prApprovalMetAt parse policies reviewers threads with
        | some metAt =>
          if created < metAt then
            some (safeBusinessTime ctx.businessTime created metAt)
          else none
        | none => none)) := by
  refine ⟨?_, ?_, ?_, ?_⟩
  · -- policy branch: the minimum of the approved reviewer-policy dates
    intro hne
    unfold prApprovalMetAt
    rw [if_neg (by simpa using hne)]
    cases hds : reviewerApprovalDates parse policies with
    | nil => exact absurd hds hne
    | cons d0 rest =>
      rcases reduceMin_spec (d0 :: rest)
        (rest.foldl (fun m x => if x < m then x else m) d0) rfl with ⟨hmem, hall⟩
      exact ⟨rest.foldl (fun m x => if x < m then x else m) d0, rfl, hmem, hall⟩
  · -- fallback branch selection
    intro hds
    unfold prApprovalMetAt
    rw [if_pos (by simpa using hds)]
  · -- properties of the fallback
    intro d h
    unfold inferApprovalsMetAtFromVotesAndComments at h
    by_cases h0 : reviewers.isEmpty
    · rw [if_pos h0] at h; cases h
    · rw [if_neg h0] at h
      by_cases h1 : (reviewers.filter (fun r => decide (5 ≤ r.vote))).isEmpty
      · rw [if_pos h1] at h; cases h
      · rw [if_neg h1] at h
        by_cases h2 : (reviewers.filter (fun r => decide (5 ≤ r.vote))).length <
            reviewers.length
        · rw [if_pos h2] at h; cases h
        · rw [if_neg h2] at h
          have hlen : (reviewers.filter (fun r => decide (5 ≤ r.vote))).length =
              reviewers.length :=
            Nat.le_antisymm (reviewers.length_filter_le _) (Nat.not_lt.mp h2)
          have hfeq : reviewers.filter (fun r => decide (5 ≤ r.vote)) =
              reviewers :=
            (List.filter_sublist reviewers).eq_of_length hlen
          have hvotes : ∀ r ∈ reviewers, 5 ≤ r.vote := by
            intro r hr
            have := (List.filter_eq_self.mp hfeq) r hr
            exact of_decide_eq_true this
          rw [hfeq] at h
          cases heb : earliestByReviewer parse threads reviewers with
          | none => rw [heb] at h; cases h
          | some ds =>
            rw [heb] at h
            rcases earliestByReviewer_spec parse threads reviewers ds heb with
              ⟨hfwd, hbwd⟩
            rcases reduceMax_spec ds d h with ⟨hdmem, hdall⟩
            refine ⟨?_, hvotes, ?_, ?_⟩
            · intro hnil
              rw [hnil] at h0
              exact h0 rfl
            · intro r hr
              rcases hfwd r hr with ⟨k, e, hk, he, hin⟩
              exact ⟨k, e, hk, he, hdall e hin⟩
            · exact hbwd d hdmem
  · -- single-PR tie-in with computeAuthoredMetrics
    intro readyRe pr ctx created hparse hstart hstop hdraft hpol hrev hth
    have hincl : includedPRs parse ctx [pr] = [pr] := by
      unfold includedPRs
      rw [List.filter_cons]
      rw [hparse]
      simp only [hstart, hstop, hdraft]
      simp
    have hproc : processPR parse readyRe ctx ⟨0, 0, 0, 0, 0, 0, 0, 0, 0, 0⟩ pr =
        (policies.filter isBuildPolicy).foldl (ciStep parse)
          (iterUpdate (lookupNat ctx.iterationsByPr pr.id)
            (mergeUpdate parse ctx.businessTime pr created
              (approvalUpdate parse ctx.businessTime policies reviewers threads
                created
                (ttfrUpdate parse readyRe ctx.businessTime threads pr created
                  ⟨0, 0, 0, 0, 0, 0, 0, 0, 0, 0⟩)))) := by
      simp only [processPR, hparse, hpol, hrev, hth]
    have happroveN :
        ((policies.filter isBuildPolicy).foldl (ciStep parse)
          (iterUpdate (lookupNat ctx.iterationsByPr pr.id)
            (mergeUpdate parse ctx.businessTime pr created
              (approvalUpdate parse ctx.businessTime policies reviewers threads
                created
                (ttfrUpdate parse readyRe ctx.businessTime threads pr created
                  ⟨0, 0, 0, 0, 0, 0, 0, 0, 0, 0⟩))))).approveN =
          (approvalUpdate parse ctx.businessTime policies reviewers threads
            created
            (ttfrUpdate parse readyRe ctx.businessTime threads pr created
              ⟨0, 0, 0, 0, 0, 0, 0, 0, 0, 0⟩)).approveN := by
      rw [(ciFold_approve parse _ _).2, (iterUpdate_approve _ _).2,
        (mergeUpdate_approve parse ctx.businessTime pr created _).2]
    have happroveS :
        ((policies.filter isBuildPolicy).foldl (ciStep parse)
          (iterUpdate (lookupNat ctx.iterationsByPr pr.id)
            (mergeUpdate parse ctx.businessTime pr created
              (approvalUpdate parse ctx.businessTime policies reviewers threads
                created
                (ttfrUpdate parse readyRe ctx.businessTime threads pr created
                  ⟨0, 0, 0, 0, 0, 0, 0, 0, 0, 0⟩))))).approveSum =
          (approvalUpdate parse ctx.businessTime policies reviewers threads
            created
            (ttfrUpdate parse readyRe ctx.businessTime threads pr created
              ⟨0, 0, 0, 0, 0, 0, 0, 0, 0, 0⟩)).approveSum := by
      rw [(ciFold_approve parse _ _).1, (iterUpdate_approve _ _).1,
        (mergeUpdate_approve parse ctx.businessTime pr created _).1]
    have httfrN := (ttfrUpdate_approve parse readyRe ctx.businessTime threads
      pr created ⟨0, 0, 0, 0, 0, 0, 0, 0, 0, 0⟩).2
    have httfrS := (ttfrUpdate_approve parse readyRe ctx.businessTime threads
      pr created ⟨0, 0, 0, 0, 0, 0, 0, 0, 0, 0⟩).1
    simp only [computeAuthoredMetrics, hincl, List.isEmpty_cons,
      Bool.false_eq_true, if_false, List.foldl_cons, List.foldl_nil, hproc,
      happroveN, happroveS]
    cases hA : prApprovalMetAt parse policies reviewers threads with
    | none =>
      simp only [approvalUpdate, hA, httfrN]
      rfl
    | some metAt =>
      simp only [approvalUpdate, hA]
      by_cases hlt : created < metAt
      · simp only [if_pos hlt, httfrN, httfrS]
        simp [roundDiv_one]
      · simp only [if_neg hlt, httfrN]
        rfl

/-! Concrete inputs for the approval-fallback witness and counterexample:
a PR created at `t = 100` whose only policy evaluation is a reviewer policy
still `running` (policy data present, no approval), with a single reviewer
who voted 10 and commented at `t = 200`. -/

/-- Date-parsing environment of the example. -/
def exParse : String → Option Int :=
  fun s => if s = "100" then some 100 else if s = "200" then some 200 else none

/-- The reviewer's comment thread. -/
def exThread : PRThread :=
  ⟨[⟨some ⟨some "rid1", some "alice@x", none, some "Alice"⟩,
    some "looks good", "200"⟩]⟩

/-- The single reviewer (vote 10 ≥ 5). -/
def exReviewer : PRReviewer := ⟨"r1", some "alice@x", "Alice", 10⟩

/-- A reviewer-category policy evaluation that is present but not
approved. -/
def exPolicyRunning : PolicyEvaluation :=
  ⟨"Minimum number of reviewers", "running", none, none⟩

/-- The authored PR. -/
def exPR : PullRequest :=
  ⟨1, ⟨some "a1", some "auth@x", none, some "Author"⟩, "100", "active",
    none, none⟩

/-- The context: wall-clock business time, no window, default draft
exclusion. -/
def exCtx : AuthoredCtx :=
  ⟨[(1, [exThread])], [(1, [exReviewer])], [(1, [exPolicyRunning])], [],
    fun a b => b - a, none, none, none⟩

/-- **C9 (counterexample)**.  Policy data for the PR is present
(`[exPolicyRunning]`), yet — because no reviewer-policy evaluation reports
approved status — `computeAuthoredMetrics` applies the vote-based fallback
and reports `timeToApproveAvgMs = some 100` (creation 100 → inferred
approval 200).  This contradicts the claim that the fallback is applied
"only when policy data is absent for the PR". -/
theorem computeAuthoredMetrics_fallback_despite_policies :
    (computeAuthoredMetrics exParse (fun _ => false) [exPR]
        exCtx).timeToApproveAvgMs = some 100 ∧
    lookupD exCtx.policiesByPr 1 = [exPolicyRunning] ∧
    reviewerApprovalDates exParse [exPolicyRunning] = [] ∧
    inferApprovalsMetAtFromVotesAndComments exParse [exReviewer] [exThread] =
      some 200 := by
  refine ⟨by decide, by decide, by decide, by decide⟩

/-- Closed witness for `computeAuthoredMetrics_approval` at the example
inputs. -/
theorem computeAuthoredMetrics_approval_witness :
    prApprovalMetAt exParse [exPolicyRunning] [exReviewer] [exThread] =
      inferApprovalsMetAtFromVotesAndComments exParse [exReviewer] [exThread] ∧
    (([exReviewer] : List PRReviewer) ≠ [] ∧
      ∀ r ∈ ([exReviewer] : List PRReviewer), 5 ≤ r.vote) ∧
    (computeAuthoredMetrics exParse (fun _ => false) [exPR]
        exCtx).timeToApproveAvgMs =
      (match prApprovalMetAt exParse [exPolicyRunning] [exReviewer] [exThread] with
      | some metAt =>
        if (100 : Int) < metAt then
          some (safeBusinessTime exCtx.businessTime 100 metAt)
        else none
      | none => none) := by
  have h := computeAuthoredMetrics_approval exParse [exPolicyRunning]
    [exReviewer] [exThread]
  refine ⟨h.2.1 (by decide), ?_, ?_⟩
  · have h3 := h.2.2.1 200 (by decide)
    exact ⟨h3.1, h3.2.1⟩
  · exact h.2.2.2 (fun _ => false) exPR exCtx 100 (by decide) rfl rfl
      (by decide) rfl rfl rfl

end AdoAnalytics
